import Mathlib

/-!
Verification of the grid-world delivery-agent core: a shallow embedding of
`environment.py`, `algorithms.py` and `agent.py` into Lean, followed by
theorems settling the frozen claims about that code.

Modelling conventions:
* A Python `Tuple[int, int]` position is `Int × Int`.
* Python `int` terrain costs are `Nat` (the data model fixes them as
  non-negative integers; the numpy grid is initialised with ones).
* Python dicts/sets that are only queried by membership or association are
  association lists / lists without duplicates.
* Python `while` loops whose termination is not structural take an explicit
  fuel argument; `none` means the fuel ran out (the real loop corresponds to
  any sufficiently large fuel), `some r` means the loop finished with `r`.
* Calls into the `random` module take their outcomes from an explicit
  `RandomStream`; universally quantifying over the stream covers every
  outcome the interpreter's generator can produce.
-/

set_option maxRecDepth 4000

abbrev Pos : Type := Int × Int

/-- The `Direction` enum of `environment.py`. -/
inductive Direction : Type where
  | UP
  | DOWN
  | LEFT
  | RIGHT
  | STAY
deriving Repr, DecidableEq

/-- `Direction.value` from `environment.py`: the (dx, dy) pair of each enum member. -/
def Direction.value : Direction → Int × Int
  | .UP => (0, -1)
  | .DOWN => (0, 1)
  | .LEFT => (-1, 0)
  | .RIGHT => (1, 0)
  | .STAY => (0, 0)

/-- A dynamic obstacle (`environment.py`, class `DynamicObstacle`): the fields
set up by `__init__` plus the mutable `position`/`step_count`/`history` state. -/
structure DynamicObstacle : Type where
  name : String
  position : Pos
  pattern : List Direction
  interval : Nat
  step_count : Nat
  history : List Pos
deriving Repr, DecidableEq

/-- `DynamicObstacle.__init__(name, start_pos, pattern, interval)`. -/
def DynamicObstacle.init (name : String) (start_pos : Pos)
    (pattern : List Direction) (interval : Nat) : DynamicObstacle :=
  ⟨name, start_pos, pattern, interval, 0, [start_pos]⟩

/-- `DynamicObstacle.move(time)`: advance the mutable position by the pattern
step for `time` when `time % interval == 0`, appending to `history`; returns
the updated obstacle together with the position the Python method returns. -/
def DynamicObstacle.move (o : DynamicObstacle) (time : Nat) : DynamicObstacle × Pos :=
  if time % o.interval = 0 then
    let pattern_index := (time / o.interval) % o.pattern.length
    let d := (o.pattern.getD pattern_index .STAY).value
    let newp : Pos := (o.position.1 + d.1, o.position.2 + d.2)
    (⟨o.name, newp, o.pattern, o.interval, o.step_count, o.history ++ [newp]⟩, newp)
  else (o, o.position)

/-- One `+=` application of a pattern direction to a position. -/
def stepPos (pattern : List Direction) (p : Pos) (i : Nat) : Pos :=
  let d := (pattern.getD (i % pattern.length) .STAY).value
  (p.1 + d.1, p.2 + d.2)

/-- `DynamicObstacle.get_position_at_time(time)`: replay the pattern from
`history[0]` for `time // interval + 1` steps.  (The Python body also computes
an unused `pattern_index`; it plays no role in the result.) -/
def DynamicObstacle.get_position_at_time (o : DynamicObstacle) (time : Nat) : Pos :=
  let effective_time := time / o.interval
  (List.range (effective_time + 1)).foldl (stepPos o.pattern) (o.history.headD (0, 0))

/-- The grid world (`environment.py`, class `GridEnvironment`).  `grid` is the
numpy cost matrix in row-major order (`grid[y][x]`); `__init__` fills it with
ones, so a missing entry reads as the default cost 1. -/
structure GridEnvironment : Type where
  width : Int
  height : Int
  grid : List (List Nat)
  static_obstacles : List Pos
  dynamic_obstacles : List DynamicObstacle
  packages : List (Nat × Pos)
  start_position : Pos
deriving Repr

/-- `GridEnvironment.is_within_bounds(x, y)`. -/
def GridEnvironment.is_within_bounds (env : GridEnvironment) (x y : Int) : Bool :=
  0 ≤ x && x < env.width && 0 ≤ y && y < env.height

/-- `GridEnvironment.get_terrain_cost(x, y)`: 999 outside the bounds, the grid
entry otherwise. -/
def GridEnvironment.get_terrain_cost (env : GridEnvironment) (x y : Int) : Nat :=
  if env.is_within_bounds x y then (env.grid.getD y.toNat []).getD x.toNat 1
  else 999

/-- `GridEnvironment.is_obstructed(x, y, time)`: static membership or some
dynamic obstacle predicted at `(x, y)` for `time`. -/
def GridEnvironment.is_obstructed (env : GridEnvironment) (x y : Int) (time : Nat) : Bool :=
  env.static_obstacles.contains (x, y) ||
    env.dynamic_obstacles.any (fun o => o.get_position_at_time time == (x, y))

/-- `GridEnvironment.get_valid_moves(x, y, time)`: the UP/DOWN/LEFT/RIGHT
neighbours that are in bounds and unobstructed, paired with their terrain
cost, in that order. -/
def GridEnvironment.get_valid_moves (env : GridEnvironment) (x y : Int) (time : Nat) :
    List (Int × Int × Nat) :=
  [Direction.UP, Direction.DOWN, Direction.LEFT, Direction.RIGHT].filterMap fun dir =>
    let d := dir.value
    let new_x := x + d.1
    let new_y := y + d.2
    if env.is_within_bounds new_x new_y && !env.is_obstructed new_x new_y time then
      some (new_x, new_y, env.get_terrain_cost new_x new_y)
    else
      none

/-- A 10×10 environment with a single static obstacle at (5, 5), as in the
spec's concrete scenario for `is_blocked`. -/
def envStatic55 : GridEnvironment :=
  ⟨10, 10, List.replicate 10 (List.replicate 10 1), [(5, 5)], [], [], (0, 0)⟩

/-- A 10×10 environment with no obstacles at all. -/
def envNoObstacles : GridEnvironment :=
  ⟨10, 10, List.replicate 10 (List.replicate 10 1), [], [], [], (0, 0)⟩

/-- Claim C1: `is_obstructed(x, y, t)` is true iff `(x, y)` is a static
obstacle or some dynamic obstacle's predicted position at time `t` equals
`(x, y)`; with a static obstacle at (5, 5) the cell (5, 5) is obstructed at
every time, and with no obstacles (0, 0) is unobstructed at time 0. -/
theorem is_obstructed_iff_static_or_dynamic :
    (∀ (env : GridEnvironment) (x y : Int) (t : Nat),
      env.is_obstructed x y t = true ↔
        ((x, y) ∈ env.static_obstacles ∨
          ∃ o ∈ env.dynamic_obstacles, o.get_position_at_time t = (x, y))) ∧
    (∀ t : Nat, envStatic55.is_obstructed 5 5 t = true) ∧
    envNoObstacles.is_obstructed 0 0 0 = false := by
  refine ⟨?_, ?_, ?_⟩
  · intro env x y t
    simp [GridEnvironment.is_obstructed, List.any_eq_true, beq_iff_eq]
  · intro t
    simp [GridEnvironment.is_obstructed, envStatic55]
  · rfl

/-- Witness for C1: the general equivalence instantiated at the concrete
obstructed cell (5, 5) of `envStatic55`. -/
theorem is_obstructed_iff_static_or_dynamic_witness :
    envStatic55.is_obstructed 5 5 3 = true ∧
      ((5, 5) ∈ envStatic55.static_obstacles ∨
        ∃ o ∈ envStatic55.dynamic_obstacles, o.get_position_at_time 3 = (5, 5)) := by
  refine ⟨is_obstructed_iff_static_or_dynamic.2.1 3, ?_⟩
  exact (is_obstructed_iff_static_or_dynamic.1 envStatic55 5 5 3).mp
    (is_obstructed_iff_static_or_dynamic.2.1 3)

/-- Fold a sequence of `move(t)` calls over an obstacle, keeping the updated
obstacle state (the agent of mutation in the Python class). -/
def applyMoves (o : DynamicObstacle) (ts : List Nat) : DynamicObstacle :=
  ts.foldl (fun o5 t => (o5.move t).1) o

/-- `move` never changes the pattern. -/
theorem move_pattern (o : DynamicObstacle) (t : Nat) : ((o.move t).1).pattern = o.pattern := by
  unfold DynamicObstacle.move
  split <;> rfl

/-- `move` never changes the interval. -/
theorem move_interval (o : DynamicObstacle) (t : Nat) : ((o.move t).1).interval = o.interval := by
  unfold DynamicObstacle.move
  split <;> rfl

/-- `move` appends to the history, so a non-empty history stays non-empty and
keeps its first entry (the configured start position). -/
theorem move_history_head (o : DynamicObstacle) (t : Nat) (h : o.history ≠ []) :
    ((o.move t).1).history.headD (0, 0) = o.history.headD (0, 0) ∧
      ((o.move t).1).history ≠ [] := by
  unfold DynamicObstacle.move
  split
  · rcases o with ⟨n, p, pat, iv, sc, hist⟩
    cases hist with
    | nil => exact absurd rfl h
    | cons a as => exact ⟨rfl, by simp⟩
  · exact ⟨rfl, h⟩

/-- `get_position_at_time` reads only the history head, the pattern and the
interval. -/
theorem get_position_at_time_congr (o o' : DynamicObstacle) (t : Nat)
    (h1 : o.history.headD (0, 0) = o'.history.headD (0, 0))
    (h2 : o.pattern = o'.pattern) (h3 : o.interval = o'.interval) :
    o.get_position_at_time t = o'.get_position_at_time t := by
  unfold DynamicObstacle.get_position_at_time
  rw [h1, h2, h3]

/-- Any fold of `move` calls leaves every future prediction unchanged. -/
theorem applyMoves_get_position_at_time (o : DynamicObstacle) (ts : List Nat) (t : Nat)
    (h : o.history ≠ []) :
    (applyMoves o ts).get_position_at_time t = o.get_position_at_time t := by
  induction ts generalizing o with
  | nil => rfl
  | cons s ss ih =>
    have hh := move_history_head o s h
    have : applyMoves o (s :: ss) = applyMoves ((o.move s).1) ss := rfl
    rw [this, ih _ hh.2]
    exact get_position_at_time_congr _ _ _ hh.1 (move_pattern o s) (move_interval o s)

/-- The environment with every dynamic obstacle advanced by a sequence of
`move` calls. -/
def moveAllObstacles (env : GridEnvironment) (ts : List Nat) : GridEnvironment :=
  ⟨env.width, env.height, env.grid, env.static_obstacles,
    env.dynamic_obstacles.map (fun o => applyMoves o ts), env.packages, env.start_position⟩

/-- Claim C4: `get_position_at_time` is a pure function of the configured
start position (history head), pattern, interval and the queried time: it is
unchanged by any sequence of intervening `move()` calls, and consequently so
is `is_obstructed`. -/
theorem get_position_at_time_pure :
    (∀ (o o' : DynamicObstacle) (t : Nat),
      o.history.headD (0, 0) = o'.history.headD (0, 0) → o.pattern = o'.pattern →
        o.interval = o'.interval →
        o.get_position_at_time t = o'.get_position_at_time t) ∧
    (∀ (o : DynamicObstacle) (ts : List Nat) (t : Nat), o.history ≠ [] →
      (applyMoves o ts).get_position_at_time t = o.get_position_at_time t) ∧
    (∀ (env : GridEnvironment) (ts : List Nat) (x y : Int) (t : Nat),
      (∀ o ∈ env.dynamic_obstacles, o.history ≠ []) →
      (moveAllObstacles env ts).is_obstructed x y t = env.is_obstructed x y t) := by
  refine ⟨get_position_at_time_congr, applyMoves_get_position_at_time, ?_⟩
  intro env ts x y t hne
  unfold GridEnvironment.is_obstructed moveAllObstacles
  congr 1
  have key : ∀ l : List DynamicObstacle, (∀ o ∈ l, o.history ≠ []) →
      (l.map fun o => applyMoves o ts).any
          (fun o => o.get_position_at_time t == (x, y)) =
        l.any (fun o => o.get_position_at_time t == (x, y)) := by
    intro l hl
    induction l with
    | nil => rfl
    | cons a as ih =>
      have ha : a.history ≠ [] := hl a (by simp)
      have has : ∀ o ∈ as, o.history ≠ [] := fun o ho => hl o (by simp [ho])
      simp only [List.map_cons, List.any_cons,
        applyMoves_get_position_at_time a ts t ha, ih has]
  exact key env.dynamic_obstacles hne

/-- Witness for C4: a concrete obstacle's prediction at time 5 is unchanged by
three intervening `move` calls. -/
theorem get_position_at_time_pure_witness :
    (applyMoves (DynamicObstacle.init "bot" (2, 2) [Direction.RIGHT, Direction.LEFT] 1)
        [0, 1, 2]).get_position_at_time 5 =
      (DynamicObstacle.init "bot" (2, 2) [Direction.RIGHT, Direction.LEFT] 1).get_position_at_time 5 :=
  get_position_at_time_pure.2.1
    (DynamicObstacle.init "bot" (2, 2) [Direction.RIGHT, Direction.LEFT] 1) [0, 1, 2] 5
    (by simp [DynamicObstacle.init])


/-- Membership in `get_valid_moves(x, y, t)`: exactly the four axis-aligned
neighbours that are in bounds and unobstructed at `t`, paired with the
neighbour's terrain cost. -/
theorem get_valid_moves_mem (env : GridEnvironment) (x y : Int) (t : Nat)
    (nx ny : Int) (c : Nat) :
    (nx, ny, c) ∈ env.get_valid_moves x y t ↔
      ((nx, ny) = (x, y - 1) ∨ (nx, ny) = (x, y + 1) ∨
          (nx, ny) = (x - 1, y) ∨ (nx, ny) = (x + 1, y)) ∧
        env.is_within_bounds nx ny = true ∧
        env.is_obstructed nx ny t = false ∧
        c = env.get_terrain_cost nx ny := by
  have e1 : ∀ z : Int, z + 0 = z := fun z => by ring
  have e2 : ∀ z : Int, z + -1 = z - 1 := fun z => by ring
  constructor
  · intro hmem
    rcases List.mem_filterMap.mp hmem with ⟨dir, hdir, hf⟩
    simp only [List.mem_cons, List.not_mem_nil, or_false] at hdir
    rcases hdir with rfl | rfl | rfl | rfl <;>
      simp only [Direction.value, e1, e2] at hf <;>
      · split at hf
        · rename_i hcond
          rw [Bool.and_eq_true, Bool.not_eq_true'] at hcond
          have hv := Option.some.inj hf
          simp only [Prod.mk.injEq] at hv
          obtain ⟨hvx, hvy, hvc⟩ := hv
          subst hvx
          subst hvy
          subst hvc
          refine ⟨by simp, hcond.1, hcond.2, rfl⟩
        · exact absurd hf (by simp)
  · rintro ⟨hnbr, hb, hobs, rfl⟩
    rcases hnbr with h | h | h | h <;>
      simp only [Prod.mk.injEq] at h <;>
      obtain ⟨h1, h2⟩ := h <;>
      subst h1 <;>
      subst h2 <;>
      refine List.mem_filterMap.mpr ?_
    · exact ⟨Direction.UP, by simp, by simp only [Direction.value, e1, e2]; rw [if_pos (by rw [hb, hobs]; rfl)]⟩
    · exact ⟨Direction.DOWN, by simp, by simp only [Direction.value, e1]; rw [if_pos (by rw [hb, hobs]; rfl)]⟩
    · exact ⟨Direction.LEFT, by simp, by simp only [Direction.value, e1, e2]; rw [if_pos (by rw [hb, hobs]; rfl)]⟩
    · exact ⟨Direction.RIGHT, by simp, by simp only [Direction.value, e1]; rw [if_pos (by rw [hb, hobs]; rfl)]⟩

/-- Every valid move is at grid distance one. -/
theorem get_valid_moves_dist (env : GridEnvironment) (x y : Int) (t : Nat)
    (nx ny : Int) (c : Nat) (hmem : (nx, ny, c) ∈ env.get_valid_moves x y t) :
    (nx - x).natAbs + (ny - y).natAbs = 1 := by
  rcases ((get_valid_moves_mem env x y t nx ny c).mp hmem).1 with h | h | h | h <;>
    simp only [Prod.mk.injEq] at h <;> obtain ⟨h1, h2⟩ := h <;> omega

/-- Claim C9: `get_valid_moves(x, y, t)` contains exactly the four axis-aligned
neighbours of `(x, y)` that are in bounds and unobstructed at `t`, each paired
with the neighbour's terrain cost; every entry is at grid distance one (no
diagonal, no stay-in-place move). -/
theorem get_valid_moves_characterisation :
    ∀ (env : GridEnvironment) (x y : Int) (t : Nat) (nx ny : Int) (c : Nat),
      ((nx, ny, c) ∈ env.get_valid_moves x y t ↔
        ((nx, ny) = (x, y - 1) ∨ (nx, ny) = (x, y + 1) ∨
            (nx, ny) = (x - 1, y) ∨ (nx, ny) = (x + 1, y)) ∧
          env.is_within_bounds nx ny = true ∧
          env.is_obstructed nx ny t = false ∧
          c = env.get_terrain_cost nx ny) ∧
      ((nx, ny, c) ∈ env.get_valid_moves x y t →
        (nx - x).natAbs + (ny - y).natAbs = 1) :=
  fun env x y t nx ny c =>
    ⟨get_valid_moves_mem env x y t nx ny c, get_valid_moves_dist env x y t nx ny c⟩

/-- Witness for C9: on the obstacle-free 10×10 grid, the move one step right
from the origin is a valid move of cost 1. -/
theorem get_valid_moves_characterisation_witness :
    ((1 : Int), (0 : Int), (1 : Nat)) ∈ envNoObstacles.get_valid_moves 0 0 0 :=
  ((get_valid_moves_characterisation envNoObstacles 0 0 0 1 0 1).1).mpr
    ⟨by simp, by decide, by decide, by decide⟩

/-- A search node (`algorithms.py`, dataclass `SearchNode`): cost, position,
arrival time, parent back-link and the goal ids collected so far.  The
`action` field is always `None` in this code base and is omitted.  The
dataclass is ordered by `cost` alone (every other field is `compare=False`). -/
inductive SearchNode : Type where
  | mk (cost : Nat) (position : Pos) (time : Nat) (parent : Option SearchNode)
      (packages_delivered : List Nat)

def SearchNode.cost : SearchNode → Nat
  | .mk c _ _ _ _ => c

def SearchNode.position : SearchNode → Pos
  | .mk _ p _ _ _ => p

def SearchNode.time : SearchNode → Nat
  | .mk _ _ t _ _ => t

def SearchNode.parent : SearchNode → Option SearchNode
  | .mk _ _ _ par _ => par

def SearchNode.packages_delivered : SearchNode → List Nat
  | .mk _ _ _ _ pk => pk

/-- `SearchNode(position)` with all defaulted constructor arguments. -/
def mkStartNode (start : Pos) : SearchNode :=
  .mk 0 start 0 none []

/-- `SearchAlgorithm.reconstruct_path`: walk the parent back-links and reverse,
yielding the start-to-goal cell sequence. -/
def reconstruct_path : SearchNode → List Pos
  | .mk _ p _ none _ => [p]
  | .mk _ p _ (some par) _ => reconstruct_path par ++ [p]

/-- The package-collection update inside `SearchAlgorithm.get_successors`: add
every package id whose delivery position is `pos` and which is not yet in the
set. -/
def collectPackages (packages : List (Nat × Pos)) (pos : Pos) (delivered : List Nat) :
    List Nat :=
  packages.foldl
    (fun acc kv => if pos == kv.2 && !acc.contains kv.1 then acc ++ [kv.1] else acc)
    delivered

/-- `SearchAlgorithm.get_successors(node)`: one child per valid move, at time
`t+1`, with accumulated cost plus the move cost, and the updated package set.
(The Python method also bumps a `nodes_expanded` diagnostic counter, which has
no effect on results and is not modelled.) -/
def get_successors (env : GridEnvironment) (node : SearchNode) : List SearchNode :=
  (env.get_valid_moves node.position.1 node.position.2 node.time).map fun m =>
    SearchNode.mk (node.cost + m.2.2) (m.1, m.2.1) (node.time + 1) (some node)
      (collectPackages env.packages (m.1, m.2.1) node.packages_delivered)

/-!  A faithful model of CPython's `heapq`: `_siftdown`, `_siftup`, `heappush`
and `heappop`, over lists with an explicit strict-order test `lt` and an
out-of-range default (never reached on the in-range indices these functions
use).  The exact sift order matters because it fixes which of several
equal-priority nodes is popped first, exactly as in the interpreter. -/

/-- CPython `heapq._siftdown(heap, startpos, pos)` with `newitem = heap[pos]`
already read.  The loop strictly decreases `pos`, so it runs at most `pos`
times; the structural fuel (always passed as at least `pos + 1`) only makes
that termination explicit and is never exhausted. -/
def siftdownAux (lt : α → α → Bool) (newitem dflt : α) (startpos : Nat) :
    Nat → Nat → List α → List α
  | 0, pos, heap => heap.set pos newitem
  | fuel + 1, pos, heap =>
    if startpos < pos then
      let parentpos := (pos - 1) / 2
      let parent := heap.getD parentpos dflt
      if lt newitem parent then
        siftdownAux lt newitem dflt startpos fuel parentpos (heap.set pos parent)
      else heap.set pos newitem
    else heap.set pos newitem

/-- CPython `heapq._siftup(heap, pos)` main loop: move the smaller child up
until reaching a leaf; returns the final position and the updated list.  The
loop at least doubles `pos + 1` each time while staying below `endpos`, so it
runs fewer than `endpos` times; the structural fuel (always passed as
`endpos`) is never exhausted. -/
def siftupAux (lt : α → α → Bool) (dflt : α) (endpos : Nat) :
    Nat → Nat → List α → Nat × List α
  | 0, pos, heap => (pos, heap)
  | fuel + 1, pos, heap =>
    if 2 * pos + 1 < endpos then
      let childpos :=
        if 2 * pos + 2 < endpos &&
            !lt (heap.getD (2 * pos + 1) dflt) (heap.getD (2 * pos + 2) dflt)
        then 2 * pos + 2 else 2 * pos + 1
      siftupAux lt dflt endpos fuel childpos (heap.set pos (heap.getD childpos dflt))
    else (pos, heap)

/-- CPython `heapq._siftup(heap, pos)`: sift the vacated slot to a leaf, put
`newitem` there, then `_siftdown` back towards `pos`. -/
def siftup (lt : α → α → Bool) (dflt : α) (heap : List α) (pos : Nat) : List α :=
  let newitem := heap.getD pos dflt
  let walked := siftupAux lt dflt heap.length heap.length pos heap
  siftdownAux lt newitem dflt pos (walked.1 + 1) walked.1 (walked.2.set walked.1 newitem)

/-- CPython `heapq.heappush(heap, item)`. -/
def heappush (lt : α → α → Bool) (dflt : α) (heap : List α) (item : α) : List α :=
  siftdownAux lt item dflt 0 (heap.length + 1) heap.length (heap ++ [item])

/-- CPython `heapq.heappop(heap)`: `none` on the empty heap (Python raises). -/
def heappop (lt : α → α → Bool) (dflt : α) (heap : List α) : Option (α × List α) :=
  match heap with
  | [] => none
  | _ :: _ =>
    let lastelt := heap.getLastD dflt
    let rest := heap.dropLast
    match rest with
    | [] => some (lastelt, [])
    | r :: _ => some (r, siftup lt dflt (rest.set 0 lastelt) 0)

/-- `BFS.search` main loop (`algorithms.py` lines 75-92), with fuel.  `none`
means the fuel ran out; `some none` is Python's `return None`. -/
def bfsLoop (env : GridEnvironment) (goal : Pos) :
    Nat → List SearchNode → List Pos → Option (Option (List Pos))
  | 0, _, _ => none
  | _ + 1, [], _ => some none
  | fuel + 1, current :: queueRest, visited =>
    if current.position == goal then some (some (reconstruct_path current))
    else
      let step := (get_successors env current).foldl
        (fun (acc : List SearchNode × List Pos) s =>
          if acc.2.contains s.position then acc
          else (acc.1 ++ [s], acc.2 ++ [s.position]))
        (queueRest, visited)
      bfsLoop env goal fuel step.1 step.2

/-- `BFS.search(start, goal)`. -/
def BFS.search (env : GridEnvironment) (start goal : Pos) (fuel : Nat) :
    Option (Option (List Pos)) :=
  bfsLoop env goal fuel [mkStartNode start] [start]

/-- Comparison of the tuples `(cost, node)` that `UniformCostSearch` pushes on
the heap: Python compares the integer costs, then (on ties) the nodes, and the
ordered dataclass compares by the `cost` field. -/
def ltUCS (a b : Nat × SearchNode) : Bool :=
  a.1 < b.1 || (a.1 == b.1 && a.2.cost < b.2.cost)

/-- Heap default element (never read at the in-range indices used). -/
def dfltUCS : Nat × SearchNode := (0, mkStartNode (0, 0))

/-- `dict.get` on an association list (`visited_costs` / `g_costs`). -/
def dictGet (l : List (Pos × Nat)) (k : Pos) : Option Nat :=
  match l.find? (fun kv => kv.1 == k) with
  | some kv => some kv.2
  | none => none

/-- `dict[k] = v` on an association list. -/
def dictSet (l : List (Pos × Nat)) (k : Pos) (v : Nat) : List (Pos × Nat) :=
  if l.any (fun kv => kv.1 == k) then
    l.map (fun kv => if kv.1 == k then (k, v) else kv)
  else l ++ [(k, v)]

/-- `UniformCostSearch.search` main loop (`algorithms.py` lines 97-118). -/
def ucsLoop (env : GridEnvironment) (goal : Pos) :
    Nat → List (Nat × SearchNode) → List (Pos × Nat) → Option (Option (List Pos))
  | 0, _, _ => none
  | fuel + 1, frontier, visited_costs =>
    match heappop ltUCS dfltUCS frontier with
    | none => some none
    | some ((current_cost, current), frontier2) =>
      let stale := match dictGet visited_costs current.position with
        | some best => decide (best < current_cost)
        | none => false
      if stale then ucsLoop env goal fuel frontier2 visited_costs
      else if current.position == goal then some (some (reconstruct_path current))
      else
        let pushed := (get_successors env current).foldl
          (fun (acc : List (Nat × SearchNode) × List (Pos × Nat)) s =>
            let better := match dictGet acc.2 s.position with
              | none => true
              | some best => decide (s.cost < best)
            if better then
              (heappush ltUCS dfltUCS acc.1 (s.cost, s), dictSet acc.2 s.position s.cost)
            else acc)
          (frontier2, visited_costs)
        ucsLoop env goal fuel pushed.1 pushed.2

/-- `UniformCostSearch.search(start, goal)`. -/
def UniformCostSearch.search (env : GridEnvironment) (start goal : Pos) (fuel : Nat) :
    Option (Option (List Pos)) :=
  ucsLoop env goal fuel (heappush ltUCS dfltUCS [] (0, mkStartNode start)) [(start, 0)]

/-!  A* priority keys.  With the `manhattan`/`chebyshev` heuristics (and the
zero fallback) the Python `f` value is an integer; with `euclidean` it is
`g + sqrt(dx^2 + dy^2)`.  A key is represented exactly as the pair `(a, m)`
standing for the real number `a + √m`, and compared by integer arithmetic
(repeated squaring).  On the magnitudes a grid search produces, the
interpreter's correctly-rounded `math.sqrt` floats compare exactly like these
real values. -/

/-- Decide `a + √m < b + √n` over the reals, by integer arithmetic. -/
def sqrtAddLt (a m b n : Nat) : Bool :=
  let c : Int := (b : Int) - (a : Int)
  if 0 ≤ c then
    let e : Int := (m : Int) - c ^ 2 - (n : Int)
    if e < 0 then true
    else decide (e ^ 2 < 4 * c ^ 2 * (n : Int))
  else
    let e : Int := (n : Int) - (m : Int) - c ^ 2
    if e ≤ 0 then false
    else decide (4 * c ^ 2 * (m : Int) < e ^ 2)

/-- An A* priority value `a + √m`. -/
abbrev FKey : Type := Nat × Nat

def fkeyLt (f g : FKey) : Bool :=
  sqrtAddLt f.1 f.2 g.1 g.2

def fkeyEq (f g : FKey) : Bool :=
  !fkeyLt f g && !fkeyLt g f

/-- Comparison of the `(f, node)` tuples `AStarSearch` pushes on the heap. -/
def ltA (x y : FKey × SearchNode) : Bool :=
  fkeyLt x.1 y.1 || (fkeyEq x.1 y.1 && x.2.cost < y.2.cost)

def dfltA : FKey × SearchNode := ((0, 0), mkStartNode (0, 0))

/-- `AStarSearch.calculate_heuristic(pos, goal)` as an exact key: manhattan
`|dx|+|dy|`, euclidean `√(dx²+dy²)`, chebyshev `max(|dx|,|dy|)`, and the zero
heuristic for any unrecognized name. -/
def AStarSearch.calculate_heuristic (heuristic : String) (pos goal : Pos) : FKey :=
  let dx := (pos.1 - goal.1).natAbs
  let dy := (pos.2 - goal.2).natAbs
  if heuristic == "manhattan" then (dx + dy, 0)
  else if heuristic == "euclidean" then (0, dx ^ 2 + dy ^ 2)
  else if heuristic == "chebyshev" then (max dx dy, 0)
  else (0, 0)

/-- `g + h` for a key-valued heuristic. -/
def addFKey (g : Nat) (h : FKey) : FKey :=
  (g + h.1, h.2)

/-- `AStarSearch.search` main loop (`algorithms.py` lines 141-172). -/
def astarLoop (env : GridEnvironment) (heuristic : String) (goal : Pos) :
    Nat → List (FKey × SearchNode) → List (Pos × Nat) → List Pos →
      Option (Option (List Pos))
  | 0, _, _, _ => none
  | fuel + 1, frontier, g_costs, visited =>
    match heappop ltA dfltA frontier with
    | none => some none
    | some ((_, current), frontier2) =>
      if visited.contains current.position then
        astarLoop env heuristic goal fuel frontier2 g_costs visited
      else
        let visited2 := visited ++ [current.position]
        if current.position == goal then some (some (reconstruct_path current))
        else
          let pushed := (get_successors env current).foldl
            (fun (acc : List (FKey × SearchNode) × List (Pos × Nat)) s =>
              if visited2.contains s.position then acc
              else
                let new_g := current.cost + env.get_terrain_cost s.position.1 s.position.2
                let better := match dictGet acc.2 s.position with
                  | none => true
                  | some best => decide (new_g < best)
                if better then
                  let f := addFKey new_g
                    (AStarSearch.calculate_heuristic heuristic s.position goal)
                  (heappush ltA dfltA acc.1 (f, s), dictSet acc.2 s.position new_g)
                else acc)
            (frontier2, g_costs)
          astarLoop env heuristic goal fuel pushed.1 pushed.2 visited2

/-- `AStarSearch.search(start, goal)` with the configured heuristic name. -/
def AStarSearch.search (env : GridEnvironment) (heuristic : String) (start goal : Pos)
    (fuel : Nat) : Option (Option (List Pos)) :=
  astarLoop env heuristic goal fuel
    (heappush ltA dfltA [] (AStarSearch.calculate_heuristic heuristic start goal,
      mkStartNode start))
    [(start, 0)] []

/-- The 5×5 all-road (cost 1) grid of the spec's concrete search scenario. -/
def env5 : GridEnvironment :=
  ⟨5, 5, List.replicate 5 (List.replicate 5 1), [], [], [], (0, 0)⟩

/-- Does a search result hold a 9-cell path from (0, 0) to (4, 4)? -/
def path9Check (r : Option (Option (List Pos))) : Bool :=
  match r with
  | some (some p) =>
    p.length == 9 && p.head? == some ((0 : Int), (0 : Int)) && p.getLast? == some (4, 4)
  | _ => false

/-- Claim C2: on the 5×5 all-cost-1 grid with no obstacles, BFS, uniform-cost
search and A* under each of the three heuristics all return a 9-cell path
whose first cell is (0, 0) and whose last cell is (4, 4).  (Fuel 300 is ample:
each search finishes well within it, as the `some (some _)` results show.) -/
theorem searches_return_nine_cell_path :
    path9Check (BFS.search env5 (0, 0) (4, 4) 300) = true ∧
    path9Check (UniformCostSearch.search env5 (0, 0) (4, 4) 300) = true ∧
    path9Check (AStarSearch.search env5 "manhattan" (0, 0) (4, 4) 300) = true ∧
    path9Check (AStarSearch.search env5 "euclidean" (0, 0) (4, 4) 300) = true ∧
    path9Check (AStarSearch.search env5 "chebyshev" (0, 0) (4, 4) 300) = true := by
  refine ⟨?_, ?_, ?_, ?_, ?_⟩ <;> decide

/-- Total terrain cost of a path, excluding its first cell — the measure the
code itself uses (`main.py` benchmarking and `DeliveryStatus.total_cost`). -/
def pathCost (env : GridEnvironment) (p : List Pos) : Nat :=
  (p.drop 1).foldl (fun acc q => acc + env.get_terrain_cost q.1 q.2) 0

/-- A 4×4 grid with a free-cost ring and an expensive direct corridor: the
column x=0 going down, the row y=3 and the column x=3 coming back up all cost
0, the interior is blocked, and the direct cells (1,0), (2,0) cost 2 with the
goal (3,0) costing 1. -/
def envCx : GridEnvironment :=
  ⟨4, 4,
    [[1, 2, 2, 1],
     [0, 1, 1, 0],
     [0, 1, 1, 0],
     [0, 0, 0, 0]],
    [(1, 1), (2, 1), (1, 2), (2, 2)], [], [], (0, 0)⟩

/-- Counterexample to claim C3: on `envCx` (which contains terrain of cost 0),
A* with the `manhattan` heuristic returns the direct path of total terrain
cost 5, while uniform-cost search returns the ring path of total terrain cost
1 — so A*'s result is strictly worse than uniform-cost's on the same grid,
start and goal. -/
theorem astar_worse_than_ucs_on_zero_cost_grid :
    AStarSearch.search envCx "manhattan" (0, 0) (3, 0) 300 =
        some (some [(0, 0), (1, 0), (2, 0), (3, 0)]) ∧
      UniformCostSearch.search envCx (0, 0) (3, 0) 300 =
        some (some [(0, 0), (0, 1), (0, 2), (0, 3), (1, 3), (2, 3), (3, 3),
          (3, 2), (3, 1), (3, 0)]) ∧
      pathCost envCx [(0, 0), (0, 1), (0, 2), (0, 3), (1, 3), (2, 3), (3, 3),
          (3, 2), (3, 1), (3, 0)] <
        pathCost envCx [(0, 0), (1, 0), (2, 0), (3, 0)] := by
  refine ⟨?_, ?_, ?_⟩ <;> decide

/-- A 4×3 grid with every terrain cost at least 1 and a patrolling dynamic
obstacle (start (1, 0), pattern RIGHT, RIGHT, DOWN, LEFT, interval 2).  The
cheap corridor through (1, 1), (2, 1) is passable only at the times the
uniform-cost pop order happens to reach it. -/
def envDyn : GridEnvironment :=
  ⟨4, 3,
    [[3, 2, 5, 1],
     [1, 3, 3, 1],
     [1, 1, 1, 3]],
    [],
    [DynamicObstacle.init "bot" (1, 0)
      [Direction.RIGHT, Direction.RIGHT, Direction.DOWN, Direction.LEFT] 2],
    [], (0, 0)⟩

/-- Second counterexample to claim C3, forcing the no-dynamic-obstacles
restriction of the amendment: on `envDyn` every in-bounds terrain cost is at
least 1, yet A* with the `chebyshev` heuristic returns a path of total terrain
cost 14 while uniform-cost search returns one of cost 8.  The searches key
their closed set and `g_costs` by position alone, so A* records the corridor
cell (2, 1) through an equal-cost but later arrival (guided there by the
heuristic via (2, 2)) and discards the earlier arrival whose timing avoids the
obstacle; it then has to detour through the cost-5 cell (2, 0). -/
theorem astar_worse_than_ucs_on_dynamic_grid :
    (∀ x y : Int, envDyn.is_within_bounds x y = true →
      1 ≤ envDyn.get_terrain_cost x y) ∧
    AStarSearch.search envDyn "chebyshev" (0, 0) (3, 1) 300 =
      some (some [(0, 0), (0, 1), (0, 2), (1, 2), (2, 2), (2, 1), (2, 0), (3, 0),
        (3, 1)]) ∧
    UniformCostSearch.search envDyn (0, 0) (3, 1) 300 =
      some (some [(0, 0), (0, 1), (1, 1), (2, 1), (3, 1)]) ∧
    pathCost envDyn [(0, 0), (0, 1), (1, 1), (2, 1), (3, 1)] <
      pathCost envDyn [(0, 0), (0, 1), (0, 2), (1, 2), (2, 2), (2, 1), (2, 0),
        (3, 0), (3, 1)] := by
  refine ⟨?_, by decide, by decide, by decide⟩
  intro x y h
  unfold GridEnvironment.is_within_bounds at h
  simp only [Bool.and_eq_true, decide_eq_true_eq] at h
  obtain ⟨⟨⟨hx0, hx4⟩, hy0⟩, hy3⟩ := h
  have hx4b : x < 4 := by exact_mod_cast hx4
  have hy3b : y < 3 := by exact_mod_cast hy3
  interval_cases x <;> interval_cases y <;> decide

/-- The counterexamples to claim C3, one per restriction of the amended
claim: terrain costs below 1 break the comparison on a purely static grid,
and a dynamic obstacle breaks it even with every in-bounds terrain cost at
least 1.  Together they force exactly the two hypotheses of the amended
theorem. -/
theorem astar_worse_than_ucs_counterexamples :
    (AStarSearch.search envCx "manhattan" (0, 0) (3, 0) 300 =
        some (some [(0, 0), (1, 0), (2, 0), (3, 0)]) ∧
      UniformCostSearch.search envCx (0, 0) (3, 0) 300 =
        some (some [(0, 0), (0, 1), (0, 2), (0, 3), (1, 3), (2, 3), (3, 3),
          (3, 2), (3, 1), (3, 0)]) ∧
      pathCost envCx [(0, 0), (0, 1), (0, 2), (0, 3), (1, 3), (2, 3), (3, 3),
          (3, 2), (3, 1), (3, 0)] <
        pathCost envCx [(0, 0), (1, 0), (2, 0), (3, 0)]) ∧
    ((∀ x y : Int, envDyn.is_within_bounds x y = true →
        1 ≤ envDyn.get_terrain_cost x y) ∧
      AStarSearch.search envDyn "chebyshev" (0, 0) (3, 1) 300 =
        some (some [(0, 0), (0, 1), (0, 2), (1, 2), (2, 2), (2, 1), (2, 0), (3, 0),
          (3, 1)]) ∧
      UniformCostSearch.search envDyn (0, 0) (3, 1) 300 =
        some (some [(0, 0), (0, 1), (1, 1), (2, 1), (3, 1)]) ∧
      pathCost envDyn [(0, 0), (0, 1), (1, 1), (2, 1), (3, 1)] <
        pathCost envDyn [(0, 0), (0, 1), (0, 2), (1, 2), (2, 2), (2, 1), (2, 0),
          (3, 0), (3, 1)]) :=
  ⟨astar_worse_than_ucs_on_zero_cost_grid, astar_worse_than_ucs_on_dynamic_grid⟩

/-- The mutable state of `DeliveryAgent`: position, fuel, elapsed ticks,
delivered package ids and realized path. -/
structure AgentState : Type where
  position : Pos
  fuel : Int
  time : Nat
  packages_delivered : List Nat
  path_history : List Pos
deriving Repr, DecidableEq

/-- The body of `DeliveryAgent.execute_route` (`agent.py` lines 82-109).  The
first list argument is the snapshot `route[1:max_steps+1]` that Python's
`enumerate` iterates over — it is fixed when the loop starts, while the
`route` argument is the rebindable `route` variable that replanning splices
into.  `replan` stands for `self.replan_route` (the call index lets one model
distinct random outcomes per invocation). -/
def resolveNext (env : GridEnvironment) (replan : Nat → List Pos → Option (List Pos))
    (next0 : Pos) (i : Nat) (route : List Pos) (st : AgentState) :
    Option (Pos × List Pos) :=
  if env.is_obstructed next0.1 next0.2 st.time then
    match replan i (route.drop (i - 1)) with
    | some new_route =>
      if new_route.isEmpty then none
      else
        let route2 := route.take (i - 1) ++ new_route
        some (if i < route2.length then route2.getD i (0, 0) else next0, route2)
    | none => none
  else some (next0, route)

def executeSteps (env : GridEnvironment) (replan : Nat → List Pos → Option (List Pos)) :
    List Pos → Nat → List Pos → AgentState → AgentState
  | [], _, _, st => st
  | next0 :: rest, i, route, st =>
    match resolveNext env replan next0 i route st with
    | none => st
    | some (next1, route2) =>
      let move_cost := env.get_terrain_cost next1.1 next1.2
      if (move_cost : Int) ≤ st.fuel then
        executeSteps env replan rest (i + 1) route2
          ⟨next1, st.fuel - move_cost, st.time + 1,
            collectPackages env.packages next1 st.packages_delivered,
            st.path_history ++ [next1]⟩
      else st

/-- `DeliveryAgent.execute_route(route, max_steps)`: iterate over the snapshot
slice `route[1:max_steps+1]` starting at index 1.  (The Python method also
reads `self.position` into an unused local and builds a `DeliveryStatus` from
the final state; the state itself carries all claimed quantities.) -/
def DeliveryAgent.execute_route (env : GridEnvironment)
    (replan : Nat → List Pos → Option (List Pos)) (st : AgentState)
    (route : List Pos) (max_steps : Nat) : AgentState :=
  executeSteps env replan ((route.drop 1).take max_steps) 1 route st

/-- `collectPackages` only appends: the original delivered list stays a
prefix, so membership is preserved. -/
theorem collectPackages_mem (packages : List (Nat × Pos)) (pos : Pos)
    (delivered : List Nat) (pid : Nat) (h : pid ∈ delivered) :
    pid ∈ collectPackages packages pos delivered := by
  induction packages generalizing delivered with
  | nil => exact h
  | cons kv rest ih =>
    unfold collectPackages
    simp only [List.foldl_cons]
    apply ih
    split
    · exact List.mem_append_left _ h
    · exact h

/-- `collectPackages` never introduces a duplicate id. -/
theorem collectPackages_nodup (packages : List (Nat × Pos)) (pos : Pos)
    (delivered : List Nat) (h : delivered.Nodup) :
    (collectPackages packages pos delivered).Nodup := by
  induction packages generalizing delivered with
  | nil => exact h
  | cons kv rest ih =>
    unfold collectPackages
    simp only [List.foldl_cons]
    apply ih
    split
    · rename_i hcond
      rw [Bool.and_eq_true, Bool.not_eq_true'] at hcond
      refine List.Nodup.append h (by simp) ?_
      intro a ha hb
      simp only [List.mem_singleton] at hb
      subst hb
      have hc : delivered.contains kv.1 = true := by simpa using ha
      rw [hcond.2] at hc
      exact absurd hc (by simp)
    · exact h

/-- Fuel never increases across `executeSteps`. -/
theorem executeSteps_fuel_le (env : GridEnvironment)
    (replan : Nat → List Pos → Option (List Pos)) :
    ∀ (snapshot : List Pos) (i : Nat) (route : List Pos) (st : AgentState),
      (executeSteps env replan snapshot i route st).fuel ≤ st.fuel := by
  intro snapshot
  induction snapshot with
  | nil => intro i route st; exact le_refl _
  | cons next0 rest ih =>
    intro i route st
    unfold executeSteps
    split
    · exact le_refl _
    · rename_i next1 route2 heq
      dsimp only
      split
      · rename_i hfuel
        refine le_trans (ih _ _ _) ?_
        show st.fuel - (env.get_terrain_cost next1.1 next1.2 : Int) ≤ st.fuel
        have hnn : (0 : Int) ≤ (env.get_terrain_cost next1.1 next1.2 : Int) :=
          Int.ofNat_nonneg _
        omega
      · exact le_refl _

/-- Fuel stays non-negative across `executeSteps`: a step is taken only when
the move cost fits in the remaining fuel. -/
theorem executeSteps_fuel_nonneg (env : GridEnvironment)
    (replan : Nat → List Pos → Option (List Pos)) :
    ∀ (snapshot : List Pos) (i : Nat) (route : List Pos) (st : AgentState),
      0 ≤ st.fuel → 0 ≤ (executeSteps env replan snapshot i route st).fuel := by
  intro snapshot
  induction snapshot with
  | nil => intro i route st h; exact h
  | cons next0 rest ih =>
    intro i route st h
    unfold executeSteps
    split
    · exact h
    · rename_i next1 route2 heq
      dsimp only
      split
      · rename_i hfuel
        refine ih _ _ _ ?_
        show (0 : Int) ≤ st.fuel - (env.get_terrain_cost next1.1 next1.2 : Int)
        omega
      · exact h

/-- Claim C5: `execute_route` never debits fuel below zero (from non-negative
fuel the final fuel is non-negative), fuel only decreases, and the loop stops
with the state unchanged the moment the next cell's terrain cost exceeds the
remaining fuel. -/
theorem execute_route_fuel_safety :
    (∀ (env : GridEnvironment) (replan : Nat → List Pos → Option (List Pos))
        (st : AgentState) (route : List Pos) (max_steps : Nat),
      0 ≤ st.fuel →
        0 ≤ (DeliveryAgent.execute_route env replan st route max_steps).fuel) ∧
    (∀ (env : GridEnvironment) (replan : Nat → List Pos → Option (List Pos))
        (st : AgentState) (route : List Pos) (max_steps : Nat),
      (DeliveryAgent.execute_route env replan st route max_steps).fuel ≤ st.fuel) ∧
    (∀ (env : GridEnvironment) (replan : Nat → List Pos → Option (List Pos))
        (next0 : Pos) (rest : List Pos) (i : Nat) (route : List Pos) (st : AgentState),
      env.is_obstructed next0.1 next0.2 st.time = false →
      st.fuel < (env.get_terrain_cost next0.1 next0.2 : Int) →
      executeSteps env replan (next0 :: rest) i route st = st) := by
  refine ⟨?_, ?_, ?_⟩
  · intro env replan st route max_steps h
    exact executeSteps_fuel_nonneg env replan _ 1 route st h
  · intro env replan st route max_steps
    exact executeSteps_fuel_le env replan _ 1 route st
  · intro env replan next0 rest i route st hobs hfuel
    have hres : resolveNext env replan next0 i route st = some (next0, route) := by
      unfold resolveNext
      rw [hobs]
      simp
    unfold executeSteps
    rw [hres]
    dsimp only
    rw [if_neg (by omega)]

/-- Witness for C5: a concrete execution on the 5×5 grid from fuel 2 along a
3-cell route ends with non-negative fuel, no more fuel than it started with,
and a concrete insufficient-fuel step leaves the state unchanged. -/
theorem execute_route_fuel_safety_witness :
    0 ≤ (DeliveryAgent.execute_route env5 (fun _ _ => none)
        ⟨(0, 0), 2, 0, [], [(0, 0)]⟩ [(0, 0), (1, 0), (2, 0), (3, 0)] 10).fuel ∧
    (DeliveryAgent.execute_route env5 (fun _ _ => none)
        ⟨(0, 0), 2, 0, [], [(0, 0)]⟩ [(0, 0), (1, 0), (2, 0), (3, 0)] 10).fuel ≤ 2 ∧
    executeSteps env5 (fun _ _ => none) [(1, 0)] 1 [(0, 0), (1, 0)]
        ⟨(0, 0), 0, 0, [], [(0, 0)]⟩ =
      ⟨(0, 0), 0, 0, [], [(0, 0)]⟩ := by
  refine ⟨?_, ?_, ?_⟩
  · exact execute_route_fuel_safety.1 env5 (fun _ _ => none)
      ⟨(0, 0), 2, 0, [], [(0, 0)]⟩ [(0, 0), (1, 0), (2, 0), (3, 0)] 10 (by decide)
  · exact execute_route_fuel_safety.2.1 env5 (fun _ _ => none)
      ⟨(0, 0), 2, 0, [], [(0, 0)]⟩ [(0, 0), (1, 0), (2, 0), (3, 0)] 10
  · exact execute_route_fuel_safety.2.2 env5 (fun _ _ => none) (1, 0) [] 1
      [(0, 0), (1, 0)] ⟨(0, 0), 0, 0, [], [(0, 0)]⟩ (by decide) (by decide)

/-- The delivered set stays duplicate-free across `executeSteps`. -/
theorem executeSteps_delivered_nodup (env : GridEnvironment)
    (replan : Nat → List Pos → Option (List Pos)) :
    ∀ (snapshot : List Pos) (i : Nat) (route : List Pos) (st : AgentState),
      st.packages_delivered.Nodup →
      (executeSteps env replan snapshot i route st).packages_delivered.Nodup := by
  intro snapshot
  induction snapshot with
  | nil => intro i route st h; exact h
  | cons next0 rest ih =>
    intro i route st h
    unfold executeSteps
    split
    · exact h
    · rename_i next1 route2 heq
      dsimp only
      split
      · exact ih _ _ _ (collectPackages_nodup _ _ _ h)
      · exact h

/-- Delivered ids are never removed across `executeSteps`. -/
theorem executeSteps_delivered_mem (env : GridEnvironment)
    (replan : Nat → List Pos → Option (List Pos)) :
    ∀ (snapshot : List Pos) (i : Nat) (route : List Pos) (st : AgentState)
      (pid : Nat), pid ∈ st.packages_delivered →
      pid ∈ (executeSteps env replan snapshot i route st).packages_delivered := by
  intro snapshot
  induction snapshot with
  | nil => intro i route st pid h; exact h
  | cons next0 rest ih =>
    intro i route st pid h
    unfold executeSteps
    split
    · exact h
    · rename_i next1 route2 heq
      dsimp only
      split
      · exact ih _ _ _ _ (collectPackages_mem _ _ _ _ h)
      · exact h

/-- Claim C6: across `execute_route`, starting from a duplicate-free delivered
set, the delivered set stays duplicate-free (each package id is recorded at
most once, however often its destination is revisited) and only grows (every
previously delivered id is still delivered). -/
theorem execute_route_delivered_once :
    ∀ (env : GridEnvironment) (replan : Nat → List Pos → Option (List Pos))
      (st : AgentState) (route : List Pos) (max_steps : Nat),
      st.packages_delivered.Nodup →
      ((DeliveryAgent.execute_route env replan st route max_steps).packages_delivered.Nodup ∧
        ∀ pid ∈ st.packages_delivered,
          pid ∈ (DeliveryAgent.execute_route env replan st route max_steps).packages_delivered) := by
  intro env replan st route max_steps h
  exact ⟨executeSteps_delivered_nodup env replan _ 1 route st h,
    fun pid hp => executeSteps_delivered_mem env replan _ 1 route st pid hp⟩

/-- A 3×3 all-cost-1 grid whose package 7 is delivered at (1, 1), which the
route below passes twice. -/
def envRevisit : GridEnvironment :=
  ⟨3, 3, List.replicate 3 (List.replicate 3 1), [], [], [(7, (1, 1))], (0, 0)⟩

/-- Witness for C6: executing a route that visits the delivery cell (1, 1)
twice records package 7 exactly once (the delivered set is duplicate-free),
and the pre-delivered id 9 survives. -/
theorem execute_route_delivered_once_witness :
    (DeliveryAgent.execute_route envRevisit (fun _ _ => none)
        ⟨(0, 0), 1000, 0, [9], [(0, 0)]⟩
        [(0, 0), (1, 0), (1, 1), (2, 1), (1, 1), (1, 2)] 10).packages_delivered.Nodup ∧
      9 ∈ (DeliveryAgent.execute_route envRevisit (fun _ _ => none)
        ⟨(0, 0), 1000, 0, [9], [(0, 0)]⟩
        [(0, 0), (1, 0), (1, 1), (2, 1), (1, 1), (1, 2)] 10).packages_delivered := by
  refine ⟨(execute_route_delivered_once envRevisit (fun _ _ => none)
      ⟨(0, 0), 1000, 0, [9], [(0, 0)]⟩
      [(0, 0), (1, 0), (1, 1), (2, 1), (1, 1), (1, 2)] 10 (by decide)).1,
    (execute_route_delivered_once envRevisit (fun _ _ => none)
      ⟨(0, 0), 1000, 0, [9], [(0, 0)]⟩
      [(0, 0), (1, 0), (1, 1), (2, 1), (1, 1), (1, 2)] 10 (by decide)).2 9 (by decide)⟩

/-- A 3×3 all-cost-1 grid with a static obstacle at (1, 0). -/
def env3 : GridEnvironment :=
  ⟨3, 3, List.replicate 3 (List.replicate 3 1), [(1, 0)], [], [], (0, 0)⟩

/-- A repair outcome for the first execution step: the detour
(0,0) → (0,1) → (1,1) → (2,1) around the obstacle at (1, 0). -/
def replanDetour : Nat → List Pos → Option (List Pos) := fun i _ =>
  if i = 1 then some [(0, 0), (0, 1), (1, 1), (2, 1)] else none

/-- Claim C7 is violated by the code: executing [(0,0),(1,0),(2,0),(2,1)] on
`env3` finds (1,0) blocked at step 1 and splices in the repaired route
[(0,0),(0,1),(1,1),(2,1)]; the repaired step onto (0,1) is taken, but the
following steps come from the pre-repair snapshot (`enumerate` iterates over
the slice `route[1:max_steps+1]` built before the loop), so the realized path
is [(0,0),(0,1),(2,0),(2,1)] — it leaves the repaired route (never visiting
(1,1)), jumps from (0,1) to the non-adjacent stale cell (2,0), and is not the
repaired-route prefix [(0,0),(0,1),(1,1),(2,1)] the claim requires. -/
theorem execute_route_follows_stale_snapshot :
    (DeliveryAgent.execute_route env3 replanDetour ⟨(0, 0), 1000, 0, [], [(0, 0)]⟩
        [(0, 0), (1, 0), (2, 0), (2, 1)] 10).path_history =
      [(0, 0), (0, 1), (2, 0), (2, 1)] ∧
    (DeliveryAgent.execute_route env3 replanDetour ⟨(0, 0), 1000, 0, [], [(0, 0)]⟩
        [(0, 0), (1, 0), (2, 0), (2, 1)] 10).path_history ≠
      [(0, 0), (0, 1), (1, 1), (2, 1)] ∧
    ((1, 1) : Pos) ∉ (DeliveryAgent.execute_route env3 replanDetour
        ⟨(0, 0), 1000, 0, [], [(0, 0)]⟩ [(0, 0), (1, 0), (2, 0), (2, 1)] 10).path_history := by
  refine ⟨?_, ?_, ?_⟩ <;> decide

/-- `self.env.packages[pkg_id]` (the key is always present when called). -/
def pkgLookup (packages : List (Nat × Pos)) (pid : Nat) : Pos :=
  match packages.find? (fun kv => kv.1 == pid) with
  | some kv => kv.2
  | none => (0, 0)

/-- `DeliveryAgent.find_path(start, goal, algorithm, heuristic)`: dispatch on
the algorithm name, any unknown name falling back to A*. -/
def DeliveryAgent.find_path (env : GridEnvironment) (algorithm heuristic : String)
    (start goal : Pos) (fuel : Nat) : Option (Option (List Pos)) :=
  if algorithm == "bfs" then BFS.search env start goal fuel
  else if algorithm == "ucs" then UniformCostSearch.search env start goal fuel
  else AStarSearch.search env heuristic start goal fuel

/-- The `while remaining_packages` loop of `plan_delivery_route` (`agent.py`
lines 40-59).  Each round scans the remaining ids for the shortest returned
path (`nearest_pkg`/`min_distance`/`nearest_path`, with `None`-as-infinity
modelled by `Option`), and Python's `if nearest_pkg and nearest_path` keeps
both truthiness tests (id 0 counts as falsy).  The bound equals the number of
remaining packages, which each successful round decreases by one. -/
def planLoop (env : GridEnvironment) (algorithm heuristic : String) (fuel : Nat) :
    Nat → Pos → List Nat → List Pos → List Pos
  | 0, _, _, full_route => full_route
  | bound + 1, current_pos, remaining, full_route =>
    if remaining.isEmpty then full_route
    else
      let best := remaining.foldl
        (fun (acc : Option Nat × Option Nat × List Pos) pid =>
          let goal_pos := pkgLookup env.packages pid
          match DeliveryAgent.find_path env algorithm heuristic current_pos goal_pos fuel with
          | some (some p) =>
            if !p.isEmpty && (match acc.2.1 with
                | none => true
                | some m => decide (p.length < m)) then
              (some pid, some p.length, p)
            else acc
          | _ => acc)
        (none, none, [])
      match best.1 with
      | some pid =>
        if pid != 0 && !best.2.2.isEmpty then
          planLoop env algorithm heuristic fuel bound (pkgLookup env.packages pid)
            (remaining.erase pid) (full_route ++ best.2.2.drop 1)
        else full_route
      | none => full_route

/-- `DeliveryAgent.plan_delivery_route(algorithm, heuristic)`: `[]` when there
are no packages at all, else `[self.position]` followed by the greedily
assembled route. -/
def DeliveryAgent.plan_delivery_route (env : GridEnvironment) (position : Pos)
    (packages_delivered : List Nat) (algorithm heuristic : String) (fuel : Nat) :
    List Pos :=
  if env.packages.isEmpty then []
  else
    let remaining := (env.packages.map (fun kv => kv.1)).filter
      (fun pid => !packages_delivered.contains pid)
    position :: planLoop env algorithm heuristic fuel remaining.length position remaining []

/-- Counterexample to claim C10: with no packages configured,
`plan_delivery_route` returns the empty list, which has no first element at
all — in particular its head is not the agent's current position. -/
theorem plan_delivery_route_empty_counterexample :
    DeliveryAgent.plan_delivery_route envNoObstacles (0, 0) [] "astar" "manhattan" 300 = [] ∧
      (DeliveryAgent.plan_delivery_route envNoObstacles (0, 0) [] "astar" "manhattan"
          300).head? ≠ some ((0 : Int), (0 : Int)) := by
  exact ⟨rfl, by decide⟩

/-- Claim C10 (amended): whenever at least one package is configured, the
route returned by `plan_delivery_route` has the agent's current position as
its first element, for every environment, algorithm and heuristic name. -/
theorem plan_delivery_route_starts_at_position (env : GridEnvironment) (position : Pos)
    (packages_delivered : List Nat) (algorithm heuristic : String) (fuel : Nat)
    (h : env.packages ≠ []) :
    (DeliveryAgent.plan_delivery_route env position packages_delivered algorithm
        heuristic fuel).head? = some position := by
  unfold DeliveryAgent.plan_delivery_route
  rw [if_neg]
  · rfl
  · simp only [List.isEmpty_iff]
    exact h

/-- Witness for C10: on the one-package grid `envRevisit` the planned route
starts at the agent position (0, 0). -/
theorem plan_delivery_route_starts_at_position_witness :
    (DeliveryAgent.plan_delivery_route envRevisit (0, 0) [] "astar" "manhattan"
        300).head? = some ((0 : Int), (0 : Int)) :=
  plan_delivery_route_starts_at_position envRevisit (0, 0) [] "astar" "manhattan" 300
    (by decide)

/-- Outcomes of the `random` module calls: `ints` feeds each `randint` /
`sample` draw (reduced into the requested range), `coins` each
`random.random() < p` test.  Quantifying over all streams covers every
outcome the interpreter can produce. -/
structure RandomStream : Type where
  ints : Nat → Nat
  coins : Nat → Bool

/-- Score comparison with `float('inf')` represented as `none`. -/
def scoreLt : Option Nat → Option Nat → Bool
  | none, _ => false
  | some _, none => true
  | some a, some b => a < b

/-- The summation inside `HillClimbing.evaluate_path`: terrain cost plus a
1000 penalty for cells predicted blocked at the step-index-derived time
(starting at 0 for the second path cell). -/
def evalPenalizedSteps (env : GridEnvironment) : List Pos → Nat → Nat
  | [], _ => 0
  | p :: rest, time =>
    env.get_terrain_cost p.1 p.2 + (if env.is_obstructed p.1 p.2 time then 1000 else 0) +
      evalPenalizedSteps env rest (time + 1)

/-- `HillClimbing.evaluate_path(path)`: `inf` for the empty path. -/
def HillClimbing.evaluate_path (env : GridEnvironment) (path : List Pos) : Option Nat :=
  if path.isEmpty then none else some (evalPenalizedSteps env (path.drop 1) 0)

/-- The breadth-first loop of `HillClimbing.find_alternative_route`, avoiding
the original segment and cells blocked at time 0. -/
def findAltLoop (env : GridEnvironment) (endP : Pos) (original_segment : List Pos) :
    Nat → List (Pos × List Pos) → List Pos → Option (Option (List Pos))
  | 0, _, _ => none
  | _ + 1, [], _ => some none
  | fuel + 1, (current, path) :: qs, visited =>
    if current == endP then some (some (path.drop 1))
    else
      let step := [((0 : Int), (1 : Int)), (1, 0), (0, -1), (-1, 0)].foldl
        (fun (acc : List (Pos × List Pos) × List Pos) d =>
          let neighbor : Pos := (current.1 + d.1, current.2 + d.2)
          if env.is_within_bounds neighbor.1 neighbor.2 &&
              !acc.2.contains neighbor &&
              !env.is_obstructed neighbor.1 neighbor.2 0 &&
              !original_segment.contains neighbor then
            (acc.1 ++ [(neighbor, path ++ [neighbor])], acc.2 ++ [neighbor])
          else acc)
        (qs, visited)
      findAltLoop env endP original_segment fuel step.1 step.2

/-- `HillClimbing.find_alternative_route(start, end, original_segment)`. -/
def HillClimbing.find_alternative_route (env : GridEnvironment) (s e : Pos)
    (original_segment : List Pos) (fuel : Nat) : Option (Option (List Pos)) :=
  findAltLoop env e original_segment fuel [(s, [s])] [s]

/-- `HillClimbing.generate_neighbor(path)`: replace a random interior segment
(`start_idx = randint(1, len-2)`, length `randint(1, 3)` capped at `len-1`)
with a detour found by the constrained breadth-first search; on a too-short
path, a failed or empty detour, the path is returned unchanged. -/
def HillClimbing.generate_neighbor (env : GridEnvironment) (rs : RandomStream)
    (bfuel : Nat) (k : Nat) (path : List Pos) : List Pos × Nat :=
  if path.length ≤ 2 then (path, k)
  else
    let start_idx := 1 + rs.ints k % (path.length - 2)
    let end_idx := min (start_idx + (1 + rs.ints (k + 1) % 3)) (path.length - 1)
    let segment_start := path.getD (start_idx - 1) (0, 0)
    let segment_end := path.getD end_idx (0, 0)
    match HillClimbing.find_alternative_route env segment_start segment_end
        ((path.drop start_idx).take (end_idx - start_idx)) bfuel with
    | some (some alt) =>
      if alt.isEmpty then (path, k + 2)
      else (path.take start_idx ++ alt ++ path.drop end_idx, k + 2)
    | _ => (path, k + 2)

/-- The acceptance step of one inner hill-climbing iteration: take a strictly
better neighbour (counting the improvement), take a worse one on a coin
(`random.random() < 0.1`), else keep the current path. -/
def hillAccept (rs : RandomStream) (neighbor current : List Pos)
    (nscore score : Option Nat) (improvements k1 : Nat) :
    List Pos × Option Nat × Nat × Nat :=
  if scoreLt nscore score then (neighbor, nscore, improvements + 1, k1)
  else if rs.coins k1 then (neighbor, nscore, improvements, k1 + 1)
  else (current, score, improvements, k1 + 1)

/-- The inner 100-iteration loop of `HillClimbing.search`: generate a
neighbour, apply the acceptance step, and break once 10 improvements
accumulate. -/
def hillInner (env : GridEnvironment) (rs : RandomStream) (bfuel : Nat) :
    Nat → List Pos → Option Nat → Nat → Nat → List Pos × Option Nat × Nat
  | 0, current, score, _, k => (current, score, k)
  | iters + 1, current, score, improvements, k =>
    let gn := HillClimbing.generate_neighbor env rs bfuel k current
    let step := hillAccept rs gn.1 current (HillClimbing.evaluate_path env gn.1) score
      improvements gn.2
    if step.2.2.1 ≥ 10 then (step.1, step.2.1, step.2.2.2)
    else hillInner env rs bfuel iters step.1 step.2.1 step.2.2.1 step.2.2.2

/-- The restart loop of `HillClimbing.search`: seed from the best path so far
(or a fresh default-heuristic A* search when none), run the inner loop, and
keep the better of the two scores. -/
def hillRestarts (env : GridEnvironment) (rs : RandomStream) (afuel bfuel : Nat)
    (start goal : Pos) :
    Nat → List Pos → Option Nat → Nat → List Pos × Nat
  | 0, best, _, k => (best, k)
  | restarts + 1, best, best_score, k =>
    let current : List Pos :=
      if best.isEmpty then
        match AStarSearch.search env "manhattan" start goal afuel with
        | some (some p) => p
        | _ => []
      else best
    let cscore := HillClimbing.evaluate_path env current
    let inner := hillInner env rs bfuel 100 current cscore 0 k
    if scoreLt inner.2.1 best_score then
      hillRestarts env rs afuel bfuel start goal restarts inner.1 inner.2.1 inner.2.2
    else
      hillRestarts env rs afuel bfuel start goal restarts best best_score inner.2.2

/-- `HillClimbing.search(start, goal, initial_path)` with `max_restarts = 10`;
the empty list stands for Python's `None` default (both are falsy). -/
def HillClimbing.search (env : GridEnvironment) (rs : RandomStream) (afuel bfuel : Nat)
    (start goal : Pos) (initial_path : List Pos) (k : Nat) : List Pos × Nat :=
  hillRestarts env rs afuel bfuel start goal 10 initial_path
    (HillClimbing.evaluate_path env initial_path) k

/-- `SimulatedAnnealing.evaluate_path(path)`: plain terrain-cost sum, with no
obstruction penalty (`inf` for the empty path). -/
def SimulatedAnnealing.evaluate_path (env : GridEnvironment) (path : List Pos) :
    Option Nat :=
  if path.isEmpty then none else some (pathCost env path)

/-- `SimulatedAnnealing.generate_neighbor(path)`: swap two distinct random
interior waypoints (`random.sample(range(1, len-1), 2)`); paths of at most 3
cells are returned unchanged. -/
def SimulatedAnnealing.generate_neighbor (rs : RandomStream) (k : Nat)
    (path : List Pos) : List Pos × Nat :=
  if path.length ≤ 3 then (path, k)
  else
    let i := 1 + rs.ints k % (path.length - 2)
    let j0 := 1 + rs.ints (k + 1) % (path.length - 3)
    let j := if j0 ≥ i then j0 + 1 else j0
    ((path.set i (path.getD j (0, 0))).set j (path.getD i (0, 0)), k + 2)

/-- The cooling loop of `SimulatedAnnealing.search`: temperature starts at
1000 and is multiplied by 0.95 each iteration until it reaches 1; better
neighbours are always accepted (tracking the best path seen), worse ones on
the Metropolis coin.  The loop runs a fixed finite number of iterations
(135), so any fuel beyond that is never consumed. -/
def saLoop (env : GridEnvironment) (rs : RandomStream) :
    Nat → ℚ → List Pos → Option Nat → List Pos → Option Nat → Nat → List Pos × Nat
  | 0, _, _, _, best, _, k => (best, k)
  | fuel + 1, temperature, current, cscore, best, bscore, k =>
    if temperature > 1 then
      let gn := SimulatedAnnealing.generate_neighbor rs k current
      let nscore := SimulatedAnnealing.evaluate_path env gn.1
      if scoreLt nscore cscore then
        if scoreLt nscore bscore then
          saLoop env rs fuel (temperature * (95 / 100)) gn.1 nscore gn.1 nscore gn.2
        else
          saLoop env rs fuel (temperature * (95 / 100)) gn.1 nscore best bscore gn.2
      else if rs.coins gn.2 then
        saLoop env rs fuel (temperature * (95 / 100)) gn.1 nscore best bscore (gn.2 + 1)
      else
        saLoop env rs fuel (temperature * (95 / 100)) current cscore best bscore (gn.2 + 1)
    else (best, k)

/-- `SimulatedAnnealing.search(start, goal, initial_path)`. -/
def SimulatedAnnealing.search (env : GridEnvironment) (rs : RandomStream)
    (afuel sfuel : Nat) (start goal : Pos) (initial_path : List Pos) (k : Nat) :
    List Pos × Nat :=
  let current : List Pos :=
    if initial_path.isEmpty then
      match AStarSearch.search env "manhattan" start goal afuel with
      | some (some p) => p
      | _ => []
    else initial_path
  let cscore := SimulatedAnnealing.evaluate_path env current
  saLoop env rs sfuel 1000 current cscore current cscore k

/-- `DeliveryAgent.replan_route(remaining_route)`: `None` for a suffix shorter
than two cells; otherwise hill climbing from the suffix's first to its last
cell seeded with the suffix itself, falling back to simulated annealing if
hill climbing yields an empty path. -/
def DeliveryAgent.replan_route (env : GridEnvironment) (rs : RandomStream)
    (afuel bfuel sfuel : Nat) (remaining_route : List Pos) (k : Nat) :
    Option (List Pos) :=
  if remaining_route.length < 2 then none
  else
    let current_pos := remaining_route.headD (0, 0)
    let goal_pos := remaining_route.getLastD (0, 0)
    let hres := HillClimbing.search env rs afuel bfuel current_pos goal_pos
      remaining_route k
    if hres.1.isEmpty then
      some (SimulatedAnnealing.search env rs afuel sfuel current_pos goal_pos
        remaining_route hres.2).1
    else some hres.1

/-- A list with a head is non-empty. -/
theorem ne_nil_of_head?_some {l : List α} {a : α} (h : l.head? = some a) : l ≠ [] := by
  intro he
  rw [he] at h
  exact Option.noConfusion h

/-- Taking a positive prefix keeps the head. -/
theorem head?_take_of_pos (l : List α) (n : Nat) (h : n ≠ 0) : (l.take n).head? = l.head? := by
  cases l with
  | nil => simp
  | cons a as =>
    cases n with
    | zero => exact absurd rfl h
    | succ n => rfl

/-- Dropping strictly fewer elements than the length keeps the last element. -/
theorem getLast?_drop_of_lt (l : List α) (m : Nat) (h : m < l.length) :
    (l.drop m).getLast? = l.getLast? := by
  induction l generalizing m with
  | nil => simp at h
  | cons a as ih =>
    cases m with
    | zero => rfl
    | succ m =>
      simp only [List.drop_succ_cons]
      have hm : m < as.length := by simpa using h
      rw [ih m hm]
      cases as with
      | nil => simp at hm
      | cons b bs => rw [List.getLast?_cons_cons]

/-- `HillClimbing.generate_neighbor` preserves the path's first and last
cells. -/
theorem hill_generate_neighbor_endpoints (env : GridEnvironment) (rs : RandomStream)
    (bfuel k : Nat) (path : List Pos) (cur dest : Pos)
    (hh : path.head? = some cur) (hl : path.getLast? = some dest) :
    (HillClimbing.generate_neighbor env rs bfuel k path).1.head? = some cur ∧
      (HillClimbing.generate_neighbor env rs bfuel k path).1.getLast? = some dest := by
  unfold HillClimbing.generate_neighbor
  split
  · exact ⟨hh, hl⟩
  · rename_i hlen
    rw [not_le] at hlen
    dsimp only
    split
    · rename_i alt heq
      split
      · exact ⟨hh, hl⟩
      · rename_i halt
        have hne : path ≠ [] := ne_nil_of_head?_some hh
        generalize hs : 1 + rs.ints k % (path.length - 2) = s
        generalize he : min (s + (1 + rs.ints (k + 1) % 3)) (path.length - 1) = e
        have hs1 : 1 ≤ s := by omega
        have he1 : e < path.length := by omega
        have htkh : (path.take s).head? = some cur := by
          rw [head?_take_of_pos _ _ (by omega)]
          exact hh
        have htne : path.take s ≠ [] := ne_nil_of_head?_some htkh
        have hdlast : (path.drop e).getLast? = some dest := by
          rw [getLast?_drop_of_lt _ _ he1]
          exact hl
        have hdne : path.drop e ≠ [] := by
          intro hd
          have := List.length_drop e path
          rw [hd] at this
          simp only [List.length_nil] at this
          omega
        have hane : alt ++ path.drop e ≠ [] := by
          intro hp
          exact hdne (List.append_eq_nil.mp hp).2
        constructor
        · rw [List.append_assoc, List.head?_append_of_ne_nil _ htne]
          exact htkh
        · rw [List.append_assoc, List.getLast?_append_of_ne_nil _ hane,
            List.getLast?_append_of_ne_nil _ hdne]
          exact hdlast
    · exact ⟨hh, hl⟩

/-- The inner hill-climbing loop preserves the path's first and last cells. -/
theorem hillInner_endpoints (env : GridEnvironment) (rs : RandomStream) (bfuel : Nat) :
    ∀ (iters : Nat) (current : List Pos) (score : Option Nat)
      (improvements k : Nat) (cur dest : Pos),
      current.head? = some cur → current.getLast? = some dest →
      ((hillInner env rs bfuel iters current score improvements k).1.head? = some cur ∧
        (hillInner env rs bfuel iters current score improvements k).1.getLast? = some dest) := by
  intro iters
  induction iters with
  | zero => intro current score improvements k cur dest hh hl; exact ⟨hh, hl⟩
  | succ iters ih =>
    intro current score improvements k cur dest hh hl
    obtain ⟨gh, gl⟩ :=
      hill_generate_neighbor_endpoints env rs bfuel k current cur dest hh hl
    have hP : ∀ (ns sc : Option Nat) (im k1 : Nat),
        ((hillAccept rs (HillClimbing.generate_neighbor env rs bfuel k current).1 current
            ns sc im k1).1.head? = some cur ∧
          (hillAccept rs (HillClimbing.generate_neighbor env rs bfuel k current).1 current
            ns sc im k1).1.getLast? = some dest) := by
      intro ns sc im k1
      unfold hillAccept
      split
      · exact ⟨gh, gl⟩
      · split
        · exact ⟨gh, gl⟩
        · exact ⟨hh, hl⟩
    unfold hillInner
    dsimp only
    split
    · exact hP _ _ _ _
    · exact ih _ _ _ _ _ _ (hP _ _ _ _).1 (hP _ _ _ _).2

/-- The hill-climbing restart loop preserves the best path's first and last
cells. -/
theorem hillRestarts_endpoints (env : GridEnvironment) (rs : RandomStream)
    (afuel bfuel : Nat) (start goal : Pos) :
    ∀ (restarts : Nat) (best : List Pos) (best_score : Option Nat) (k : Nat)
      (cur dest : Pos),
      best.head? = some cur → best.getLast? = some dest →
      ((hillRestarts env rs afuel bfuel start goal restarts best best_score k).1.head? =
          some cur ∧
        (hillRestarts env rs afuel bfuel start goal restarts best best_score k).1.getLast? =
          some dest) := by
  intro restarts
  induction restarts with
  | zero => intro best best_score k cur dest hh hl; exact ⟨hh, hl⟩
  | succ restarts ih =>
    intro best best_score k cur dest hh hl
    have hbe : best.isEmpty = false := by
      cases best with
      | nil => exact absurd hh (by simp)
      | cons a as => rfl
    unfold hillRestarts
    rw [hbe]
    simp only [Bool.false_eq_true, if_false]
    obtain ⟨ihh, ihl⟩ := hillInner_endpoints env rs bfuel 100 best
      (HillClimbing.evaluate_path env best) 0 k cur dest hh hl
    split
    · exact ih _ _ _ _ _ ihh ihl
    · exact ih _ _ _ _ _ hh hl

/-- `HillClimbing.search` preserves the seed path's first and last cells. -/
theorem hill_search_endpoints (env : GridEnvironment) (rs : RandomStream)
    (afuel bfuel : Nat) (start goal : Pos) (path : List Pos) (k : Nat) (cur dest : Pos)
    (hh : path.head? = some cur) (hl : path.getLast? = some dest) :
    ((HillClimbing.search env rs afuel bfuel start goal path k).1.head? = some cur ∧
      (HillClimbing.search env rs afuel bfuel start goal path k).1.getLast? = some dest) := by
  unfold HillClimbing.search
  exact hillRestarts_endpoints env rs afuel bfuel start goal 10 path _ k cur dest hh hl

/-- Claim C8: for every remaining-route suffix of at least two cells whose
first cell is the current position and whose last cell is the destination,
and for every outcome of the random choices (and any loop fuels),
`replan_route` returns a non-empty sequence with that same first and last
cell — never a malformed empty-but-non-null sequence.  (For shorter suffixes
it returns the explicit failure `none`.) -/
theorem replan_route_shape :
    ∀ (env : GridEnvironment) (rs : RandomStream) (afuel bfuel sfuel : Nat)
      (remaining : List Pos) (k : Nat) (cur dest : Pos),
      2 ≤ remaining.length →
      remaining.head? = some cur → remaining.getLast? = some dest →
      ∃ p, DeliveryAgent.replan_route env rs afuel bfuel sfuel remaining k = some p ∧
        p ≠ [] ∧ p.head? = some cur ∧ p.getLast? = some dest := by
  intro env rs afuel bfuel sfuel remaining k cur dest hlen hh hl
  obtain ⟨sh, sl⟩ := hill_search_endpoints env rs afuel bfuel
    (remaining.headD (0, 0)) (remaining.getLastD (0, 0)) remaining k cur dest hh hl
  have hne : (HillClimbing.search env rs afuel bfuel (remaining.headD (0, 0))
      (remaining.getLastD (0, 0)) remaining k).1 ≠ [] := ne_nil_of_head?_some sh
  have hbe : (HillClimbing.search env rs afuel bfuel (remaining.headD (0, 0))
      (remaining.getLastD (0, 0)) remaining k).1.isEmpty = false := by
    cases hlist : (HillClimbing.search env rs afuel bfuel (remaining.headD (0, 0))
        (remaining.getLastD (0, 0)) remaining k).1 with
    | nil => exact absurd hlist hne
    | cons a as => rfl
  refine ⟨(HillClimbing.search env rs afuel bfuel (remaining.headD (0, 0))
      (remaining.getLastD (0, 0)) remaining k).1, ?_, hne, sh, sl⟩
  unfold DeliveryAgent.replan_route
  rw [if_neg (by omega)]
  dsimp only
  rw [hbe]
  simp only [Bool.false_eq_true, if_false]

/-- A 2×1 two-cell corridor. -/
def envCorridor : GridEnvironment :=
  ⟨2, 1, [[1, 1]], [], [], [], (0, 0)⟩

/-- Witness for C8: repairing the two-cell suffix [(0,0),(1,0)] on the
corridor grid (constant random stream) yields a non-empty path from (0,0) to
(1,0). -/
theorem replan_route_shape_witness :
    ∃ p, DeliveryAgent.replan_route envCorridor ⟨fun _ => 0, fun _ => false⟩ 0 0 0
        [(0, 0), (1, 0)] 0 = some p ∧
      p ≠ [] ∧ p.head? = some ((0 : Int), (0 : Int)) ∧
      p.getLast? = some ((1 : Int), (0 : Int)) :=
  replan_route_shape envCorridor ⟨fun _ => 0, fun _ => false⟩ 0 0 0
    [(0, 0), (1, 0)] 0 (0, 0) (1, 0) (by decide) (by decide) (by decide)

/-!  General theory for the stronger form of the A*-versus-UCS comparison:
CPython's heap pops a minimum, the searches' frontiers hold only valid path
nodes, and with every terrain cost at least 1 on a static grid the three
heuristics are consistent, so A*'s returned cost never exceeds the cost of
any valid walk — in particular of the walk uniform-cost search returns. -/

/-- `lt` is the strict part of a total preorder (asymmetric and negatively
transitive), as Python's `<` is on the tuples the searches push. -/
structure StrictWeakLt (lt : α → α → Bool) : Prop where
  asymm : ∀ a b, lt a b = true → lt b a = false
  negtrans : ∀ a b c, lt a b = false → lt b c = false → lt a c = false

theorem StrictWeakLt.irrefl {lt : α → α → Bool} (h : StrictWeakLt lt) (a : α) :
    lt a a = false := by
  cases hl : lt a a with
  | false => rfl
  | true =>
    have h2 := h.asymm a a hl
    rw [hl] at h2
    exact h2

theorem StrictWeakLt.lt_trans {lt : α → α → Bool} (h : StrictWeakLt lt) {a b c : α}
    (h1 : lt a b = true) (h2 : lt b c = true) : lt a c = true := by
  cases hac : lt a c with
  | true => rfl
  | false =>
    have hcb : lt c b = false := h.asymm b c h2
    have : lt a b = false := h.negtrans a c b hac hcb
    rw [h1] at this
    exact this.symm

/-- The real value of an A* priority key. -/
noncomputable def keyR (k : FKey) : ℝ :=
  (k.1 : ℝ) + Real.sqrt (k.2 : ℝ)

/-- `sqrtAddLt` decides exactly the comparison of the real key values. -/
theorem sqrtAddLt_iff (a m b n : Nat) :
    sqrtAddLt a m b n = true ↔ (a : ℝ) + Real.sqrt m < (b : ℝ) + Real.sqrt n := by
  have hm0 : (0 : ℝ) ≤ Real.sqrt m := Real.sqrt_nonneg _
  have hn0 : (0 : ℝ) ≤ Real.sqrt n := Real.sqrt_nonneg _
  have hm : Real.sqrt m ^ 2 = (m : ℝ) := Real.sq_sqrt (by positivity)
  have hn : Real.sqrt n ^ 2 = (n : ℝ) := Real.sq_sqrt (by positivity)
  rw [show sqrtAddLt a m b n =
      (if 0 ≤ (b : Int) - (a : Int) then
        if (m : Int) - ((b : Int) - (a : Int)) ^ 2 - (n : Int) < 0 then true
        else decide (((m : Int) - ((b : Int) - (a : Int)) ^ 2 - (n : Int)) ^ 2 <
          4 * ((b : Int) - (a : Int)) ^ 2 * (n : Int))
      else
        if (n : Int) - (m : Int) - ((b : Int) - (a : Int)) ^ 2 ≤ 0 then false
        else decide (4 * ((b : Int) - (a : Int)) ^ 2 * (m : Int) <
          ((n : Int) - (m : Int) - ((b : Int) - (a : Int)) ^ 2) ^ 2)) from rfl]
  split
  · rename_i hc
    set c : Int := (b : Int) - (a : Int) with hcdef
    have hcR : ((c : ℝ)) = (b : ℝ) - (a : ℝ) := by push_cast [hcdef]; ring
    have hc0 : (0 : ℝ) ≤ (c : ℝ) := by exact_mod_cast hc
    split
    · rename_i he
      simp only [true_iff]
      have heR : (m : ℝ) < (c : ℝ) ^ 2 + (n : ℝ) := by
        have : (m : Int) < c ^ 2 + (n : Int) := by omega
        exact_mod_cast this
      nlinarith [Real.sqrt_nonneg (m : ℝ), Real.sqrt_nonneg (n : ℝ), hm, hn,
        mul_nonneg hc0 hn0]
    · rename_i he
      rw [decide_eq_true_eq]
      have heR : (0 : ℝ) ≤ (m : ℝ) - (c : ℝ) ^ 2 - (n : ℝ) := by
        have : (0 : Int) ≤ (m : Int) - c ^ 2 - (n : Int) := by omega
        exact_mod_cast this
      constructor
      · intro hlt
        have hltR : ((m : ℝ) - (c : ℝ) ^ 2 - (n : ℝ)) ^ 2 < 4 * (c : ℝ) ^ 2 * (n : ℝ) := by
          have : ((m : Int) - c ^ 2 - n) ^ 2 < 4 * c ^ 2 * (n : Int) := hlt
          exact_mod_cast this
        by_contra hcon
        push_neg at hcon
        have hge : (c : ℝ) + Real.sqrt n ≤ Real.sqrt m := by
          rw [hcR]
          linarith
        have hcn0 : (0 : ℝ) ≤ (c : ℝ) + Real.sqrt n := by linarith
        have hsq : ((c : ℝ) + Real.sqrt n) ^ 2 ≤ Real.sqrt m ^ 2 :=
          pow_le_pow_left hcn0 hge 2
        have h2 : 2 * (c : ℝ) * Real.sqrt n ≤ (m : ℝ) - (c : ℝ) ^ 2 - (n : ℝ) := by
          nlinarith [hsq, hm, hn]
        have h3 : (0 : ℝ) ≤ 2 * (c : ℝ) * Real.sqrt n :=
          mul_nonneg (mul_nonneg (by norm_num) hc0) hn0
        have h4 : (2 * (c : ℝ) * Real.sqrt n) ^ 2 ≤
            ((m : ℝ) - (c : ℝ) ^ 2 - (n : ℝ)) ^ 2 := pow_le_pow_left h3 h2 2
        have h5 : (2 * (c : ℝ) * Real.sqrt n) ^ 2 = 4 * (c : ℝ) ^ 2 * (n : ℝ) := by
          rw [show (2 * (c : ℝ) * Real.sqrt n) ^ 2 =
            4 * (c : ℝ) ^ 2 * Real.sqrt n ^ 2 from by ring, hn]
        linarith
      · intro hlt
        have key : (m : ℝ) - (c : ℝ) ^ 2 - (n : ℝ) < 2 * (c : ℝ) * Real.sqrt n := by
          nlinarith [sq_nonneg ((c : ℝ) + Real.sqrt n)]
        have : ((m : ℝ) - (c : ℝ) ^ 2 - (n : ℝ)) ^ 2 < 4 * (c : ℝ) ^ 2 * (n : ℝ) := by
          nlinarith [mul_nonneg hc0 hn0]
        have hi : ((m : Int) - c ^ 2 - n) ^ 2 < 4 * c ^ 2 * (n : Int) := by
          exact_mod_cast this
        exact hi
  · rename_i hc
    set c : Int := (b : Int) - (a : Int) with hcdef
    have hcR : ((c : ℝ)) = (b : ℝ) - (a : ℝ) := by push_cast [hcdef]; ring
    have hc0 : (c : ℝ) < 0 := by exact_mod_cast not_le.mp hc
    split
    · rename_i he
      have heR : (n : ℝ) - (m : ℝ) - (c : ℝ) ^ 2 ≤ 0 := by
        have : (n : Int) - (m : Int) - c ^ 2 ≤ 0 := by omega
        exact_mod_cast this
      constructor
      · intro hf
        exact absurd hf (by simp)
      · intro hlt
        exfalso
        have hge : Real.sqrt m - (c : ℝ) < Real.sqrt n := by
          rw [hcR] at *
          linarith
        have h0 : (0 : ℝ) ≤ Real.sqrt m - (c : ℝ) := by linarith
        have h4 : (Real.sqrt m - (c : ℝ)) ^ 2 < Real.sqrt n ^ 2 :=
          pow_lt_pow_left hge h0 (by norm_num)
        nlinarith [hm, hn, mul_nonneg (le_of_lt (neg_pos.mpr hc0)) hm0]
    · rename_i he
      rw [decide_eq_true_eq]
      have heR : (0 : ℝ) < (n : ℝ) - (m : ℝ) - (c : ℝ) ^ 2 := by
        have : (0 : Int) < (n : Int) - (m : Int) - c ^ 2 := by omega
        exact_mod_cast this
      constructor
      · intro hlt
        have hltR : 4 * (c : ℝ) ^ 2 * (m : ℝ) < ((n : ℝ) - (m : ℝ) - (c : ℝ) ^ 2) ^ 2 := by
          have : 4 * c ^ 2 * (m : Int) < ((n : Int) - m - c ^ 2) ^ 2 := hlt
          exact_mod_cast this
        by_contra hcon
        push_neg at hcon
        have hge : Real.sqrt n ≤ Real.sqrt m - (c : ℝ) := by
          rw [hcR]
          linarith
        have h4 : Real.sqrt n ^ 2 ≤ (Real.sqrt m - (c : ℝ)) ^ 2 :=
          pow_le_pow_left hn0 hge 2
        have h2 : (n : ℝ) - (m : ℝ) - (c : ℝ) ^ 2 ≤ 2 * (-(c : ℝ)) * Real.sqrt m := by
          nlinarith [h4, hm, hn]
        have h5 : ((n : ℝ) - (m : ℝ) - (c : ℝ) ^ 2) ^ 2 ≤
            (2 * (-(c : ℝ)) * Real.sqrt m) ^ 2 := pow_le_pow_left (le_of_lt heR) h2 2
        have h6 : (2 * (-(c : ℝ)) * Real.sqrt m) ^ 2 = 4 * (c : ℝ) ^ 2 * (m : ℝ) := by
          rw [show (2 * (-(c : ℝ)) * Real.sqrt m) ^ 2 =
            4 * (c : ℝ) ^ 2 * Real.sqrt m ^ 2 from by ring, hm]
        linarith
      · intro hlt
        have key : 2 * (-(c : ℝ)) * Real.sqrt m < (n : ℝ) - (m : ℝ) - (c : ℝ) ^ 2 := by
          nlinarith [sq_nonneg (Real.sqrt m - (c : ℝ))]
        have : 4 * (c : ℝ) ^ 2 * (m : ℝ) < ((n : ℝ) - (m : ℝ) - (c : ℝ) ^ 2) ^ 2 := by
          nlinarith [mul_nonneg (le_of_lt (neg_pos.mpr hc0)) hm0]
        have hi : 4 * c ^ 2 * (m : Int) < ((n : Int) - m - c ^ 2) ^ 2 := by
          exact_mod_cast this
        exact hi

/-- `fkeyLt` decides the real comparison of key values. -/
theorem fkeyLt_iff (f g : FKey) : fkeyLt f g = true ↔ keyR f < keyR g :=
  sqrtAddLt_iff f.1 f.2 g.1 g.2

/-- In-range `getD` after `set` at the written index. -/
theorem getD_set_self (l : List α) (i : Nat) (a d : α) (h : i < l.length) :
    (l.set i a).getD i d = a := by
  rw [List.getD_eq_getElem _ d (by simpa using h)]
  exact List.getElem_set_self (by simpa using h)

/-- In-range `getD` after `set` at a different index. -/
theorem getD_set_ne (l : List α) (i j : Nat) (a d : α) (hj : j < l.length) (h : i ≠ j) :
    (l.set i a).getD j d = l.getD j d := by
  rw [List.getD_eq_getElem _ d (by simpa using hj), List.getD_eq_getElem l d hj]
  exact List.getElem_set_ne h ..

/-- Writing back the value already present changes nothing. -/
theorem set_getD_self (l : List α) (i : Nat) (d : α) (h : i < l.length) :
    l.set i (l.getD i d) = l := by
  rw [List.getD_eq_getElem l d h]
  apply List.ext_getElem
  · simp
  · intro n h1 h2
    by_cases hn : n = i
    · subst hn
      exact List.getElem_set_self ..
    · exact List.getElem_set_ne (fun he => hn he.symm) ..

/-- Exchanging the values at two in-range positions is a permutation. -/
theorem set_set_swap_perm (l : List α) (i j : Nat) (d : α)
    (hi : i < l.length) (hj : j < l.length) :
    List.Perm ((l.set i (l.getD j d)).set j (l.getD i d)) l := by
  classical
  by_cases hij : i = j
  · subst hij
    rw [List.set_set, set_getD_self l i d hi]
  · rw [List.getD_eq_getElem l d hi, List.getD_eq_getElem l d hj, List.perm_iff_count]
    intro a
    have h1 := List.count_set (l[j]) a l i hi
    have h2 := List.count_set (l[i]) a (l.set i (l[j])) j (by simpa using hj)
    rw [h2, h1]
    simp only [List.getElem_set_ne hij]
    have hmi : l[i] ∈ l := List.getElem_mem hi
    have hmj : l[j] ∈ l := List.getElem_mem hj
    by_cases hia : l[i] = a <;> by_cases hja : l[j] = a
    · have : 0 < l.count a := List.count_pos_iff.mpr (hia ▸ hmi)
      simp only [hia, hja, beq_self_eq_true, if_true]
      omega
    · have hb : (l[j] == a) = false := beq_eq_false_iff_ne.mpr hja
      simp only [hia, beq_self_eq_true, if_true, hb, Bool.false_eq_true, if_false]
      have : 0 < l.count a := List.count_pos_iff.mpr (hia ▸ hmi)
      omega
    · have hb : (l[i] == a) = false := beq_eq_false_iff_ne.mpr hia
      simp only [hja, beq_self_eq_true, if_true, hb, Bool.false_eq_true, if_false]
      have : 0 < l.count a := List.count_pos_iff.mpr (hja ▸ hmj)
      omega
    · have hb : (l[i] == a) = false := beq_eq_false_iff_ne.mpr hia
      have hb2 : (l[j] == a) = false := beq_eq_false_iff_ne.mpr hja
      simp only [hb, hb2, Bool.false_eq_true, if_false]
      omega

/-- The zero-based binary min-heap parent/child ordering, with the strict test
`lt`: no child is strictly below its parent. -/
def HeapInv (lt : α → α → Bool) (dflt : α) (l : List α) : Prop :=
  ∀ c, 0 < c → c < l.length → lt (l.getD c dflt) (l.getD ((c - 1) / 2) dflt) = false

/-- In a heap, no element is strictly below the root. -/
theorem HeapInv.root_min {lt : α → α → Bool} {dflt : α} (hswo : StrictWeakLt lt)
    {l : List α} (h : HeapInv lt dflt l) :
    ∀ i, i < l.length → lt (l.getD i dflt) (l.getD 0 dflt) = false := by
  intro i
  induction i using Nat.strong_induction_on with
  | _ i ih =>
    intro hi
    cases Nat.eq_zero_or_pos i with
    | inl h0 =>
      subst h0
      exact hswo.irrefl _
    | inr hpos =>
      have hp : (i - 1) / 2 < i := by
        have := Nat.div_le_self (i - 1) 2
        omega
      exact hswo.negtrans _ _ _ (h i hpos hi) (ih _ hp (Nat.lt_trans hp hi))

/-- Correctness of CPython's `_siftdown` from `startpos = 0` (the only start
position the search code uses): if every parent/child edge except those
touching the hole `pos` is ordered, the hole's children are at least
`newitem`, and (when the hole has a parent) the hole's children are at least
the hole's parent, then the walk produces a heap that is a permutation of the
array with `newitem` written at the hole. -/
theorem siftdownAux_spec {lt : α → α → Bool} (hswo : StrictWeakLt lt)
    (newitem dflt : α) :
    ∀ (fuel pos : Nat) (A : List α),
      pos < A.length → pos + 1 ≤ fuel →
      (∀ c, 0 < c → c < A.length → c ≠ pos →
        lt (A.getD c dflt) (A.getD ((c - 1) / 2) dflt) = false) →
      (∀ c, 0 < c → c < A.length → (c - 1) / 2 = pos →
        lt (A.getD c dflt) newitem = false) →
      (∀ c, 0 < pos → c < A.length → (c - 1) / 2 = pos →
        lt (A.getD c dflt) (A.getD ((pos - 1) / 2) dflt) = false) →
      HeapInv lt dflt (siftdownAux lt newitem dflt 0 fuel pos A) ∧
        List.Perm (siftdownAux lt newitem dflt 0 fuel pos A) (A.set pos newitem) ∧
        (siftdownAux lt newitem dflt 0 fuel pos A).length = A.length := by
  intro fuel
  induction fuel with
  | zero => intro pos A hlen hfuel; omega
  | succ fuel ih =>
    intro pos A hlen hfuel hP2 hP3 hQ
    rw [siftdownAux]
    split
    · rename_i hpos
      dsimp only
      split
      · rename_i hcmp
        set parentpos := (pos - 1) / 2 with hpp
        have hpplt : parentpos < pos := by
          have := Nat.div_le_self (pos - 1) 2
          omega
        have hpplen : parentpos < A.length := Nat.lt_trans hpplt hlen
        set pv := A.getD parentpos dflt with hpv
        set A2 := A.set pos pv with hA2
        have hA2len : A2.length = A.length := by
          rw [hA2]
          simp
        have hget2 : ∀ c, c ≠ pos → c < A.length → A2.getD c dflt = A.getD c dflt := by
          intro c hc hcl
          exact getD_set_ne A pos c pv dflt hcl (fun he => hc he.symm)
        have hgetpos : A2.getD pos dflt = pv := getD_set_self A pos pv dflt hlen
        have hP2' : ∀ c, 0 < c → c < A2.length → c ≠ parentpos →
            lt (A2.getD c dflt) (A2.getD ((c - 1) / 2) dflt) = false := by
          intro c hc0 hcl hcp
          rw [hA2len] at hcl
          by_cases hcpos : c = pos
          · subst hcpos
            rw [← hpp, hgetpos, hget2 parentpos (by omega) hpplen, ← hpv]
            exact hswo.irrefl pv
          · rw [hget2 c hcpos hcl]
            by_cases hpar : (c - 1) / 2 = pos
            · rw [hpar, hgetpos]
              exact hQ c hpos hcl hpar
            · rw [hget2 _ hpar (by
                have := Nat.div_le_self (c - 1) 2
                omega)]
              exact hP2 c hc0 hcl hcpos
        have hP3' : ∀ c, 0 < c → c < A2.length → (c - 1) / 2 = parentpos →
            lt (A2.getD c dflt) newitem = false := by
          intro c hc0 hcl hcp
          rw [hA2len] at hcl
          by_cases hcpos : c = pos
          · subst hcpos
            rw [hgetpos]
            exact hswo.asymm newitem pv hcmp
          · rw [hget2 c hcpos hcl]
            have hedge := hP2 c hc0 hcl hcpos
            rw [hcp, ← hpv] at hedge
            cases hcn : lt (A.getD c dflt) newitem with
            | false => rfl
            | true =>
              have ht := hswo.lt_trans hcn hcmp
              rw [hedge] at ht
              exact Bool.noConfusion ht
        have hQ' : ∀ c, 0 < parentpos → c < A2.length → (c - 1) / 2 = parentpos →
            lt (A2.getD c dflt) (A2.getD ((parentpos - 1) / 2) dflt) = false := by
          intro c hpp0 hcl hcp
          rw [hA2len] at hcl
          have hgpb : (parentpos - 1) / 2 < A.length := by
            have := Nat.div_le_self (parentpos - 1) 2
            omega
          have hgp : (parentpos - 1) / 2 ≠ pos := by
            have := Nat.div_le_self (parentpos - 1) 2
            omega
          rw [hget2 _ hgp hgpb]
          have hedgepar := hP2 parentpos hpp0 hpplen (by omega)
          rw [← hpv] at hedgepar
          by_cases hcpos : c = pos
          · subst hcpos
            rw [hgetpos]
            exact hedgepar
          · rw [hget2 c hcpos hcl]
            have hedge := hP2 c (by omega) hcl hcpos
            rw [hcp, ← hpv] at hedge
            exact hswo.negtrans _ _ _ hedge hedgepar
        have main := ih parentpos A2 (by omega) (by omega) hP2' hP3' hQ'
        refine ⟨main.1, ?_, by rw [main.2.2, hA2len]⟩
        have hkey : ((A.set pos newitem).set pos
              ((A.set pos newitem).getD parentpos dflt)).set parentpos
              ((A.set pos newitem).getD pos dflt) = A2.set parentpos newitem := by
          rw [getD_set_ne A pos parentpos newitem dflt hpplen (by omega),
            getD_set_self A pos newitem dflt hlen, List.set_set, hA2, hpv]
        refine main.2.1.trans ?_
        rw [← hkey]
        exact set_set_swap_perm (A.set pos newitem) pos parentpos dflt
          (by simpa using hlen) (by simpa using hpplen)
      · rename_i hcmp
        rw [Bool.not_eq_true] at hcmp
        refine ⟨?_, List.Perm.refl _, by simp⟩
        intro c hc0 hcl
        rw [List.length_set] at hcl
        by_cases hcpos : c = pos
        · subst hcpos
          have hppne : (c - 1) / 2 ≠ c := by
            have := Nat.div_le_self (c - 1) 2
            omega
          rw [getD_set_self A c newitem dflt hcl, getD_set_ne A c _ newitem dflt (by
            have := Nat.div_le_self (c - 1) 2
            omega) (fun he => hppne he.symm)]
          exact hcmp
        · rw [getD_set_ne A pos c newitem dflt hcl (fun he => hcpos he.symm)]
          by_cases hpar : (c - 1) / 2 = pos
          · rw [hpar, getD_set_self A pos newitem dflt hlen]
            exact hP3 c hc0 hcl hpar
          · rw [getD_set_ne A pos _ newitem dflt (by
              have := Nat.div_le_self (c - 1) 2
              omega) (fun he => hpar he.symm)]
            exact hP2 c hc0 hcl hcpos
    · rename_i hpos
      have hp0 : pos = 0 := by omega
      subst hp0
      refine ⟨?_, List.Perm.refl _, by simp⟩
      intro c hc0 hcl
      rw [List.length_set] at hcl
      have hcne : c ≠ 0 := by omega
      rw [getD_set_ne A 0 c newitem dflt hcl (fun he => hcne he.symm)]
      by_cases hpar : (c - 1) / 2 = 0
      · rw [hpar, getD_set_self A 0 newitem dflt hlen]
        exact hP3 c hc0 hcl hpar
      · rw [getD_set_ne A 0 _ newitem dflt (by
          have := Nat.div_le_self (c - 1) 2
          omega) (fun he => hpar he.symm)]
        exact hP2 c hc0 hcl hcne

/-- Correctness of the hole-walking loop of CPython's `_siftup`: starting from
a hole at `pos` with every edge not touching the hole ordered (and, if the
hole has a parent, the hole's children at least that parent), the walk ends at
an in-range leaf, keeps all hole-avoiding edges ordered, and permutes nothing
(up to plugging the hole with `newitem`). -/
theorem siftupAux_spec {lt : α → α → Bool} (hswo : StrictWeakLt lt)
    (dflt newitem : α) (endpos : Nat) :
    ∀ (fuel pos : Nat) (A : List α),
      endpos = A.length →
      pos < A.length → A.length ≤ fuel + pos →
      (∀ c p, 0 < c → c < A.length → p = (c - 1) / 2 → c ≠ pos → p ≠ pos →
        lt (A.getD c dflt) (A.getD p dflt) = false) →
      (∀ c, 0 < pos → c < A.length → (c - 1) / 2 = pos →
        lt (A.getD c dflt) (A.getD ((pos - 1) / 2) dflt) = false) →
      ((siftupAux lt dflt endpos fuel pos A).1 < A.length ∧
        (siftupAux lt dflt endpos fuel pos A).2.length = A.length ∧
        A.length ≤ 2 * (siftupAux lt dflt endpos fuel pos A).1 + 1 ∧
        (∀ c p, 0 < c → c < A.length → p = (c - 1) / 2 →
          c ≠ (siftupAux lt dflt endpos fuel pos A).1 →
          p ≠ (siftupAux lt dflt endpos fuel pos A).1 →
          lt ((siftupAux lt dflt endpos fuel pos A).2.getD c dflt)
            ((siftupAux lt dflt endpos fuel pos A).2.getD p dflt) = false) ∧
        List.Perm ((siftupAux lt dflt endpos fuel pos A).2.set
          (siftupAux lt dflt endpos fuel pos A).1 newitem) (A.set pos newitem)) := by
  intro fuel
  induction fuel with
  | zero => intro pos A hend hlen hfuel; omega
  | succ fuel ih =>
    intro pos A hend hlen hfuel hW2 hW3
    rw [siftupAux]
    split
    · rename_i h2p
      dsimp only
      set cp := if 2 * pos + 2 < endpos &&
          !lt (A.getD (2 * pos + 1) dflt) (A.getD (2 * pos + 2) dflt)
        then 2 * pos + 2 else 2 * pos + 1 with hcpdef
      have hfacts : pos < cp ∧ cp < endpos ∧ (cp - 1) / 2 = pos ∧
          (∀ o, o < endpos → (o = 2 * pos + 1 ∨ o = 2 * pos + 2) → o ≠ cp →
            lt (A.getD o dflt) (A.getD cp dflt) = false) := by
        by_cases hsel : (2 * pos + 2 < endpos &&
            !lt (A.getD (2 * pos + 1) dflt) (A.getD (2 * pos + 2) dflt)) = true
        · rw [if_pos hsel] at hcpdef
          rw [Bool.and_eq_true, decide_eq_true_eq, Bool.not_eq_true'] at hsel
          refine ⟨by omega, by omega, by omega, ?_⟩
          intro o ho hor hone
          have ho1 : o = 2 * pos + 1 := by omega
          subst ho1
          rw [hcpdef]
          exact hsel.2
        · rw [if_neg hsel] at hcpdef
          rw [Bool.and_eq_true, decide_eq_true_eq, Bool.not_eq_true'] at hsel
          push_neg at hsel
          refine ⟨by omega, by omega, by omega, ?_⟩
          intro o ho hor hone
          have ho2 : o = 2 * pos + 2 := by omega
          subst ho2
          rw [hcpdef]
          have hltlr := hsel (by omega)
          simp only [ne_eq, Bool.not_eq_false] at hltlr
          exact hswo.asymm _ _ hltlr
      obtain ⟨hcp1, hcp2, hcp3, hcpsel⟩ := hfacts
      set cv := A.getD cp dflt with hcv
      set A2 := A.set pos cv with hA2
      have hA2len : A2.length = A.length := by
        rw [hA2]
        simp
      have hget2 : ∀ c, c ≠ pos → c < A.length → A2.getD c dflt = A.getD c dflt := by
        intro c hc hcl
        exact getD_set_ne A pos c cv dflt hcl (fun he => hc he.symm)
      have hgetpos : A2.getD pos dflt = cv := getD_set_self A pos cv dflt hlen
      have hcplen : cp < A.length := by omega
      have hW2' : ∀ c p, 0 < c → c < A2.length → p = (c - 1) / 2 → c ≠ cp → p ≠ cp →
          lt (A2.getD c dflt) (A2.getD p dflt) = false := by
        intro c p hc0 hcl hp hccp hpcp
        rw [hA2len] at hcl
        have hplt : p < A.length := by
          have := Nat.div_le_self (c - 1) 2
          omega
        by_cases hcpos : c = pos
        · subst hcpos
          have hpne : p ≠ c := by omega
          rw [hgetpos, hget2 p hpne hplt]
          have h3 := hW3 cp hc0 hcplen hcp3
          rw [← hcv] at h3
          rw [hp]
          exact h3
        · rw [hget2 c hcpos hcl]
          by_cases hppos : p = pos
          · subst hppos
            rw [hgetpos]
            exact hcpsel c (by omega) (by omega) hccp
          · rw [hget2 p hppos hplt]
            exact hW2 c p hc0 hcl hp hcpos hppos
      have hW3' : ∀ c, 0 < cp → c < A2.length → (c - 1) / 2 = cp →
          lt (A2.getD c dflt) (A2.getD ((cp - 1) / 2) dflt) = false := by
        intro c hcp0 hcl hcc
        rw [hA2len] at hcl
        rw [hcp3, hgetpos]
        have hcne : c ≠ pos := by omega
        rw [hget2 c hcne hcl]
        have h2 := hW2 c cp (by omega) hcl hcc.symm hcne (by omega)
        rw [← hcv] at h2
        exact h2
      have main := ih cp A2 (by rw [hA2len]; exact hend) (by omega) (by omega) hW2' hW3'
      rw [hA2len] at main
      refine ⟨main.1, main.2.1, main.2.2.1, main.2.2.2.1, ?_⟩
      refine main.2.2.2.2.trans ?_
      have hkey : ((A.set pos newitem).set pos
            ((A.set pos newitem).getD cp dflt)).set cp
            ((A.set pos newitem).getD pos dflt) = A2.set cp newitem := by
        rw [getD_set_ne A pos cp newitem dflt hcplen (by omega),
          getD_set_self A pos newitem dflt hlen, List.set_set, hA2, hcv]
      rw [← hkey]
      exact set_set_swap_perm (A.set pos newitem) pos cp dflt
        (by simpa using hlen) (by simpa using hcplen)
    · rename_i h2p
      dsimp only
      exact ⟨hlen, rfl, by omega, fun c p hc0 hcl hp hcpos hppos =>
        hW2 c p hc0 hcl hp hcpos hppos, List.Perm.refl _⟩

/-- Correctness of CPython's `_siftup` at position `0` (the only position the
search code uses): if every edge whose parent is not the root is ordered, the
result is a heap and a permutation of the input. -/
theorem siftup_spec {lt : α → α → Bool} (hswo : StrictWeakLt lt)
    (dflt : α) (heap : List α) (h0 : 0 < heap.length)
    (hH : ∀ c p, 0 < c → c < heap.length → p = (c - 1) / 2 → p ≠ 0 →
      lt (heap.getD c dflt) (heap.getD p dflt) = false) :
    HeapInv lt dflt (siftup lt dflt heap 0) ∧
      List.Perm (siftup lt dflt heap 0) heap ∧
      (siftup lt dflt heap 0).length = heap.length := by
  rw [show siftup lt dflt heap 0 = siftdownAux lt (heap.getD 0 dflt) dflt 0
      ((siftupAux lt dflt heap.length heap.length 0 heap).1 + 1)
      (siftupAux lt dflt heap.length heap.length 0 heap).1
      ((siftupAux lt dflt heap.length heap.length 0 heap).2.set
        (siftupAux lt dflt heap.length heap.length 0 heap).1 (heap.getD 0 dflt))
    from rfl]
  set ni := heap.getD 0 dflt with hni
  set w := siftupAux lt dflt heap.length heap.length 0 heap with hw
  have hup := siftupAux_spec hswo dflt ni heap.length heap.length 0 heap rfl h0 (by omega)
    (fun c p hc0 hcl hp hcz hpz => hH c p hc0 hcl hp hpz)
    (fun c hz _ _ => absurd hz (by omega))
  rw [← hw] at hup
  obtain ⟨hw1, hw2, hw3, hw4, hw5⟩ := hup
  have hsid : heap.set 0 ni = heap := by
    rw [hni]
    exact set_getD_self heap 0 dflt h0
  rw [hsid] at hw5
  set B := w.2.set w.1 ni with hB
  have hBlen : B.length = heap.length := by
    rw [hB, List.length_set, hw2]
  have hnochild : ∀ c, 0 < c → c < B.length → (c - 1) / 2 ≠ w.1 := by
    intro c hc0 hcl
    rw [hBlen] at hcl
    omega
  have hgB : ∀ c, c ≠ w.1 → c < heap.length → B.getD c dflt = w.2.getD c dflt := by
    intro c hc hcl
    exact getD_set_ne w.2 w.1 c ni dflt (by rw [hw2]; exact hcl) (fun he => hc he.symm)
  have hP2 : ∀ c, 0 < c → c < B.length → c ≠ w.1 →
      lt (B.getD c dflt) (B.getD ((c - 1) / 2) dflt) = false := by
    intro c hc0 hcl hcw
    have hcl2 : c < heap.length := hBlen ▸ hcl
    have hpw : (c - 1) / 2 ≠ w.1 := hnochild c hc0 hcl
    rw [hgB c hcw hcl2, hgB _ hpw (by
      have := Nat.div_le_self (c - 1) 2
      omega)]
    exact hw4 c ((c - 1) / 2) hc0 hcl2 rfl hcw hpw
  have hP3 : ∀ c, 0 < c → c < B.length → (c - 1) / 2 = w.1 →
      lt (B.getD c dflt) ni = false := by
    intro c hc0 hcl hcp
    exact absurd hcp (hnochild c hc0 hcl)
  have hQ : ∀ c, 0 < w.1 → c < B.length → (c - 1) / 2 = w.1 →
      lt (B.getD c dflt) (B.getD ((w.1 - 1) / 2) dflt) = false := by
    intro c hwpos hcl hcp
    have hc0 : 0 < c := by
      rcases Nat.eq_zero_or_pos c with hc | hc
      · subst hc
        omega
      · exact hc
    exact absurd hcp (hnochild c hc0 hcl)
  have hdown := siftdownAux_spec hswo ni dflt (w.1 + 1) w.1 B
    (by rw [hBlen]; exact hw1) (by omega) hP2 hP3 hQ
  have hBB : B.set w.1 ni = B := by
    rw [hB, List.set_set]
  rw [hBB] at hdown
  exact ⟨hdown.1, hdown.2.1.trans hw5, by rw [hdown.2.2, hBlen]⟩

/-- CPython `heappush` on a heap yields a heap holding the old elements plus
the new item. -/
theorem heappush_spec {lt : α → α → Bool} (hswo : StrictWeakLt lt)
    (dflt item : α) (heap : List α) (hinv : HeapInv lt dflt heap) :
    HeapInv lt dflt (heappush lt dflt heap item) ∧
      List.Perm (heappush lt dflt heap item) (item :: heap) ∧
      (heappush lt dflt heap item).length = heap.length + 1 := by
  rw [heappush]
  have hAlen : (heap ++ [item]).length = heap.length + 1 := by simp
  have hgA : ∀ c, c < heap.length → (heap ++ [item]).getD c dflt = heap.getD c dflt :=
    fun c hc => List.getD_append heap [item] dflt c hc
  have hP2 : ∀ c, 0 < c → c < (heap ++ [item]).length → c ≠ heap.length →
      lt ((heap ++ [item]).getD c dflt) ((heap ++ [item]).getD ((c - 1) / 2) dflt)
        = false := by
    intro c hc0 hcl hcp
    rw [hAlen] at hcl
    have hcl2 : c < heap.length := by omega
    rw [hgA c hcl2, hgA _ (by
      have := Nat.div_le_self (c - 1) 2
      omega)]
    exact hinv c hc0 hcl2
  have hP3 : ∀ c, 0 < c → c < (heap ++ [item]).length → (c - 1) / 2 = heap.length →
      lt ((heap ++ [item]).getD c dflt) item = false := by
    intro c hc0 hcl hcp
    rw [hAlen] at hcl
    omega
  have hQ : ∀ c, 0 < heap.length → c < (heap ++ [item]).length →
      (c - 1) / 2 = heap.length →
      lt ((heap ++ [item]).getD c dflt)
        ((heap ++ [item]).getD ((heap.length - 1) / 2) dflt) = false := by
    intro c hl0 hcl hcp
    rw [hAlen] at hcl
    omega
  have hmain := siftdownAux_spec hswo item dflt (heap.length + 1) heap.length
    (heap ++ [item]) (by omega) (by omega) hP2 hP3 hQ
  have hset : (heap ++ [item]).set heap.length item = heap ++ [item] := by
    have hg : (heap ++ [item]).getD heap.length dflt = item := by
      rw [List.getD_eq_getElem _ dflt (by omega)]
      exact List.getElem_concat_length heap item heap.length rfl (by omega)
    nth_rewrite 2 [← hg]
    exact set_getD_self (heap ++ [item]) heap.length dflt (by omega)
  rw [hset] at hmain
  exact ⟨hmain.1, hmain.2.1.trans (List.perm_append_singleton item heap),
    by rw [hmain.2.2, hAlen]⟩

/-- CPython `heappop` on a nonempty heap returns the root — an element below
no other element of the heap — and a heap holding exactly the remaining
elements. -/
theorem heappop_spec {lt : α → α → Bool} (hswo : StrictWeakLt lt)
    (dflt : α) (heap : List α) (hne : heap ≠ [])
    (hinv : HeapInv lt dflt heap) :
    ∃ h2, heappop lt dflt heap = some (heap.getD 0 dflt, h2) ∧
      HeapInv lt dflt h2 ∧ List.Perm heap (heap.getD 0 dflt :: h2) ∧
      ∀ y ∈ heap, lt y (heap.getD 0 dflt) = false := by
  have hmin : ∀ y ∈ heap, lt y (heap.getD 0 dflt) = false := by
    intro y hy
    obtain ⟨n, hn, he⟩ := List.mem_iff_getElem.mp hy
    have hr := HeapInv.root_min hswo hinv n hn
    rw [List.getD_eq_getElem heap dflt hn, he] at hr
    exact hr
  obtain ⟨a, t, rfl⟩ : ∃ a t, heap = a :: t := by
    cases heap with
    | nil => exact absurd rfl hne
    | cons a t => exact ⟨a, t, rfl⟩
  cases t with
  | nil =>
    refine ⟨[], rfl, ?_, List.Perm.refl _, hmin⟩
    intro c hc0 hcl
    simp at hcl
  | cons b t =>
    have hrfl : heappop lt dflt (a :: b :: t) =
        some (a, siftup lt dflt
          (((a :: b :: t).dropLast).set 0 ((a :: b :: t).getLastD dflt)) 0) := rfl
    set le := (a :: b :: t).getLastD dflt with hle
    set L := (a :: b :: t).dropLast with hLdef
    set M := L.set 0 le with hM
    have hLlen : L.length = t.length + 1 := by
      rw [hLdef, List.length_dropLast]
      simp
    have hMlen : M.length = t.length + 1 := by
      rw [hM, List.length_set, hLlen]
    have hgL : ∀ c, c < L.length → L.getD c dflt = (a :: b :: t).getD c dflt := by
      intro c hc
      have hc2 : c < (a :: b :: t).length := by
        rw [hLdef, List.length_dropLast] at hc
        simp only [List.length_cons] at hc ⊢
        omega
      rw [List.getD_eq_getElem L dflt hc, List.getD_eq_getElem _ dflt hc2]
      exact List.getElem_dropLast (a :: b :: t) c (hLdef ▸ hc)
    have hH : ∀ c p, 0 < c → c < M.length → p = (c - 1) / 2 → p ≠ 0 →
        lt (M.getD c dflt) (M.getD p dflt) = false := by
      intro c p hc0 hcl hp hpz
      have hplt : p < c := by
        have := Nat.div_le_self (c - 1) 2
        omega
      rw [hMlen] at hcl
      have hgc : M.getD c dflt = (a :: b :: t).getD c dflt := by
        rw [hM, getD_set_ne L 0 c le dflt (by omega) (by omega)]
        exact hgL c (by omega)
      have hgp : M.getD p dflt = (a :: b :: t).getD p dflt := by
        rw [hM, getD_set_ne L 0 p le dflt (by omega) (fun he => hpz he.symm)]
        exact hgL p (by omega)
      rw [hgc, hgp, hp]
      exact hinv c hc0 (by simp only [List.length_cons]; omega)
    have hs := siftup_spec hswo dflt M (by omega) hH
    refine ⟨siftup lt dflt M 0, hrfl, hs.1, ?_, hmin⟩
    have hlast : le = (b :: t).getLast (by simp) := by
      rw [hle, List.getLastD_eq_getLast?, List.getLast?_cons_cons,
        List.getLast?_eq_getLast (b :: t) (by simp)]
      rfl
    have h1 : (b :: t).dropLast ++ [le] = b :: t := by
      rw [hlast]
      exact List.dropLast_append_getLast (by simp)
    have h2 : List.Perm ((b :: t).dropLast ++ [le]) (le :: (b :: t).dropLast) :=
      List.perm_append_singleton le _
    rw [h1] at h2
    have hMeq : M = le :: (b :: t).dropLast := rfl
    have h3 : List.Perm (b :: t) M := by
      rw [hMeq]
      exact h2
    exact List.Perm.cons a (h3.trans hs.2.1.symm)

/-!  Shortest-path optimality of the A* implementation, on environments with
no dynamic obstacles and positive terrain costs.  The development below builds
the graph abstraction (single steps, walks and their costs), relates search
nodes to walks, shows the heap comparators are strict weak orders, and proves
the frontier invariant that makes the popped node optimal. -/

/-- With no dynamic obstacles, obstruction is static membership alone. -/
theorem is_obstructed_static (env : GridEnvironment)
    (hs : env.dynamic_obstacles = []) (x y : Int) (t : Nat) :
    env.is_obstructed x y t = env.static_obstacles.contains (x, y) := by
  unfold GridEnvironment.is_obstructed
  rw [hs]
  simp

/-- With no dynamic obstacles, valid moves do not depend on the time. -/
theorem get_valid_moves_static (env : GridEnvironment)
    (hs : env.dynamic_obstacles = []) (x y : Int) (t : Nat) :
    env.get_valid_moves x y t = env.get_valid_moves x y 0 := by
  unfold GridEnvironment.get_valid_moves
  simp only [is_obstructed_static env hs]

/-- One admissible step of the movement graph (at time 0; with no dynamic
obstacles every time gives the same steps). -/
def stepOkP (env : GridEnvironment) (p q : Pos) : Prop :=
  (q.1, q.2, env.get_terrain_cost q.1 q.2) ∈ env.get_valid_moves p.1 p.2 0

/-- A step target is one of the four axis-aligned neighbours and in bounds. -/
theorem stepOkP_facts (env : GridEnvironment) (p q : Pos) (h : stepOkP env p q) :
    ((q.1, q.2) = (p.1, p.2 - 1) ∨ (q.1, q.2) = (p.1, p.2 + 1) ∨
      (q.1, q.2) = (p.1 - 1, p.2) ∨ (q.1, q.2) = (p.1 + 1, p.2)) ∧
      env.is_within_bounds q.1 q.2 = true := by
  have hm := (get_valid_moves_mem env p.1 p.2 0 q.1 q.2 _).mp h
  exact ⟨hm.1, hm.2.1⟩

/-- Folding `+ f q` is adding the sum of the mapped list. -/
theorem foldl_add_eq (f : Pos → Nat) :
    ∀ (l : List Pos) (a : Nat),
      l.foldl (fun acc q => acc + f q) a = a + (l.map f).sum := by
  intro l
  induction l with
  | nil => intro a; simp
  | cons x xs ih =>
    intro a
    simp only [List.foldl_cons, List.map_cons, List.sum_cons, ih]
    omega

/-- `pathCost` sums the terrain costs of all cells after the first. -/
theorem pathCost_cons (env : GridEnvironment) (x : Pos) (l : List Pos) :
    pathCost env (x :: l) = (l.map (fun q => env.get_terrain_cost q.1 q.2)).sum := by
  show l.foldl _ 0 = _
  rw [foldl_add_eq]
  omega

theorem pathCost_singleton (env : GridEnvironment) (p : Pos) : pathCost env [p] = 0 := rfl

/-- Appending one cell to a nonempty path adds that cell's terrain cost. -/
theorem pathCost_append_singleton (env : GridEnvironment) (l : List Pos) (p : Pos)
    (h : l ≠ []) :
    pathCost env (l ++ [p]) = pathCost env l + env.get_terrain_cost p.1 p.2 := by
  obtain ⟨x, xs, rfl⟩ : ∃ x xs, l = x :: xs := by
    cases l with
    | nil => exact absurd rfl h
    | cons x xs => exact ⟨x, xs, rfl⟩
  rw [List.cons_append, pathCost_cons, pathCost_cons]
  simp

/-- A walk of the movement graph from `start` to `p`: the realizable paths. -/
def WalkTo (env : GridEnvironment) (start p : Pos) (w : List Pos) : Prop :=
  w.head? = some start ∧ w.getLast? = some p ∧ List.Chain' (stepOkP env) w

/-- A search node is well-formed when its back-link chain is a walk priced by
its `cost` field: the root node is the zero-cost start, every other node steps
from its parent and adds the target cell's terrain cost. -/
def NodeOk (env : GridEnvironment) (start : Pos) : SearchNode → Prop
  | .mk c p _ none _ => c = 0 ∧ p = start
  | .mk c p _ (some par) _ =>
    NodeOk env start par ∧ stepOkP env par.position p ∧
      c = par.cost + env.get_terrain_cost p.1 p.2

theorem NodeOk_mkStart (env : GridEnvironment) (start : Pos) :
    NodeOk env start (mkStartNode start) := ⟨rfl, rfl⟩

theorem reconstruct_path_ne_nil : ∀ n : SearchNode, reconstruct_path n ≠ []
  | .mk _ p _ none _ => by simp [reconstruct_path]
  | .mk _ p _ (some par) _ => by simp [reconstruct_path]

theorem reconstruct_path_last :
    ∀ n : SearchNode, (reconstruct_path n).getLast? = some n.position
  | .mk c p t none pk => rfl
  | .mk c p t (some par) pk => List.getLast?_concat _

theorem reconstruct_path_head (env : GridEnvironment) (start : Pos) :
    ∀ n : SearchNode, NodeOk env start n → (reconstruct_path n).head? = some start
  | .mk c p t none pk, h => by
    show some p = some start
    rw [h.2]
  | .mk c p t (some par) pk, h => by
    show (reconstruct_path par ++ [p]).head? = some start
    rw [List.head?_append_of_ne_nil _ (reconstruct_path_ne_nil par)]
    exact reconstruct_path_head env start par h.1

theorem reconstruct_path_chain (env : GridEnvironment) (start : Pos) :
    ∀ n : SearchNode, NodeOk env start n →
      List.Chain' (stepOkP env) (reconstruct_path n)
  | .mk c p t none pk, h => by
    show List.Chain' (stepOkP env) [p]
    simp
  | .mk c p t (some par) pk, h => by
    show List.Chain' (stepOkP env) (reconstruct_path par ++ [p])
    refine List.chain'_append.mpr
      ⟨reconstruct_path_chain env start par h.1, by simp, ?_⟩
    intro u hu v hv
    rw [reconstruct_path_last par] at hu
    simp only [Option.mem_def, List.head?_cons, Option.some.injEq] at hu hv
    rw [← hu, ← hv]
    exact h.2.1

theorem reconstruct_path_cost (env : GridEnvironment) (start : Pos) :
    ∀ n : SearchNode, NodeOk env start n → pathCost env (reconstruct_path n) = n.cost
  | .mk c p t none pk, h => by
    show pathCost env [p] = c
    rw [pathCost_singleton, h.1]
  | .mk c p t (some par) pk, h => by
    show pathCost env (reconstruct_path par ++ [p]) = c
    rw [pathCost_append_singleton env _ p (reconstruct_path_ne_nil par),
      reconstruct_path_cost env start par h.1]
    exact h.2.2.symm

/-- A well-formed node's reconstructed path is a walk to the node's position. -/
theorem reconstruct_path_walk (env : GridEnvironment) (start : Pos) (n : SearchNode)
    (h : NodeOk env start n) :
    WalkTo env start n.position (reconstruct_path n) :=
  ⟨reconstruct_path_head env start n h, reconstruct_path_last n,
    reconstruct_path_chain env start n h⟩

/-- Every successor steps from the node and prices the step at the target
cell's terrain cost (with no dynamic obstacles the node's arrival time is
irrelevant). -/
theorem mem_get_successors (env : GridEnvironment) (hs : env.dynamic_obstacles = [])
    (n s : SearchNode) (hmem : s ∈ get_successors env n) :
    stepOkP env n.position s.position ∧
      s.cost = n.cost + env.get_terrain_cost s.position.1 s.position.2 ∧
      s.parent = some n := by
  obtain ⟨m, hm, rfl⟩ := List.mem_map.mp hmem
  rw [get_valid_moves_static env hs] at hm
  have hm2 : (m.1, m.2.1, m.2.2) ∈ env.get_valid_moves n.position.1 n.position.2 0 := hm
  have hc := ((get_valid_moves_mem env _ _ 0 m.1 m.2.1 m.2.2).mp hm2).2.2.2
  refine ⟨?_, ?_, rfl⟩
  · show (m.1, m.2.1, env.get_terrain_cost m.1 m.2.1) ∈
      env.get_valid_moves n.position.1 n.position.2 0
    rw [← hc]
    exact hm2
  · show n.cost + m.2.2 = n.cost + env.get_terrain_cost m.1 m.2.1
    rw [hc]

/-- Successors of well-formed nodes are well-formed. -/
theorem NodeOk_succ (env : GridEnvironment) (hs : env.dynamic_obstacles = [])
    (start : Pos) (n s : SearchNode) (hn : NodeOk env start n)
    (hmem : s ∈ get_successors env n) : NodeOk env start s := by
  obtain ⟨h1, h2, h3⟩ := mem_get_successors env hs n s hmem
  obtain ⟨m, hm, rfl⟩ := List.mem_map.mp hmem
  exact ⟨hn, h1, h2⟩

/-- Every admissible step out of a node's position is covered by a successor. -/
theorem get_successors_cover (env : GridEnvironment) (hs : env.dynamic_obstacles = [])
    (n : SearchNode) (q : Pos) (hq : stepOkP env n.position q) :
    ∃ s ∈ get_successors env n, s.position = q ∧
      s.cost = n.cost + env.get_terrain_cost q.1 q.2 := by
  refine ⟨SearchNode.mk (n.cost + env.get_terrain_cost q.1 q.2) (q.1, q.2)
    (n.time + 1) (some n)
    (collectPackages env.packages (q.1, q.2) n.packages_delivered), ?_, rfl, rfl⟩
  apply List.mem_map.mpr
  refine ⟨(q.1, q.2, env.get_terrain_cost q.1 q.2), ?_, rfl⟩
  rw [get_valid_moves_static env hs]
  exact hq

/-- `dictGet` on a cons: test the head binding, else look in the tail. -/
theorem dictGet_cons (a : Pos × Nat) (as : List (Pos × Nat)) (k : Pos) :
    dictGet (a :: as) k = if a.1 == k then some a.2 else dictGet as k := by
  unfold dictGet
  rw [List.find?_cons]
  cases h : (a.1 == k) <;> simp [h, dictGet]

/-- Updating key `k` then reading `k` gives the new value (map branch). -/
theorem dictGet_map_update (k : Pos) (v : Nat) :
    ∀ l : List (Pos × Nat), l.any (fun kv => kv.1 == k) = true →
      dictGet (l.map (fun kv => if kv.1 == k then (k, v) else kv)) k = some v := by
  intro l
  induction l with
  | nil => intro h; cases h
  | cons a as ih =>
    intro h
    rw [List.map_cons]
    by_cases ha : (a.1 == k) = true
    · rw [if_pos ha, dictGet_cons]
      rw [if_pos (by simp)]
    · have ha2 : (a.1 == k) = false := by rwa [Bool.not_eq_true] at ha
      rw [if_neg ha, dictGet_cons, if_neg (by rw [ha2]; simp)]
      rw [List.any_cons, ha2, Bool.false_or] at h
      exact ih h

/-- Updating key `k` leaves other keys' values alone (map branch). -/
theorem dictGet_map_update_ne (k k' : Pos) (v : Nat) (hne : k' ≠ k) :
    ∀ l : List (Pos × Nat),
      dictGet (l.map (fun kv => if kv.1 == k then (k, v) else kv)) k' =
        dictGet l k' := by
  have hkk : (k == k') = false := beq_eq_false_iff_ne.mpr (fun h => hne h.symm)
  intro l
  induction l with
  | nil => rfl
  | cons a as ih =>
    rw [List.map_cons]
    by_cases ha : (a.1 == k) = true
    · have hak : a.1 = k := by simpa using ha
      rw [if_pos ha, dictGet_cons, dictGet_cons]
      have h1 : (((k, v) : Pos × Nat).1 == k') = false := hkk
      have h2 : (a.1 == k') = false := by rw [hak]; exact hkk
      rw [h1, h2, if_neg (by simp), if_neg (by simp)]
      exact ih
    · rw [if_neg ha, dictGet_cons, dictGet_cons]
      cases ha' : (a.1 == k') with
      | true => rw [if_pos (by simp), if_pos (by simp)]
      | false => rw [if_neg (by simp), if_neg (by simp)]; exact ih

/-- Appending a fresh binding for `k` makes `k` readable (append branch). -/
theorem dictGet_append_self (k : Pos) (v : Nat) :
    ∀ l : List (Pos × Nat), l.any (fun kv => kv.1 == k) = false →
      dictGet (l ++ [(k, v)]) k = some v := by
  intro l
  induction l with
  | nil =>
    intro h
    rw [List.nil_append, dictGet_cons, if_pos (by simp)]
  | cons a as ih =>
    intro h
    rw [List.any_cons, Bool.or_eq_false_iff] at h
    rw [List.cons_append, dictGet_cons, if_neg (by rw [h.1]; simp)]
    exact ih h.2

/-- Appending a binding for `k` leaves other keys' values alone. -/
theorem dictGet_append_ne (k k' : Pos) (v : Nat) (hne : k' ≠ k) :
    ∀ l : List (Pos × Nat), dictGet (l ++ [(k, v)]) k' = dictGet l k' := by
  have hkk : (k == k') = false := beq_eq_false_iff_ne.mpr (fun h => hne h.symm)
  intro l
  induction l with
  | nil =>
    rw [List.nil_append, dictGet_cons]
    have h1 : (((k, v) : Pos × Nat).1 == k') = false := hkk
    rw [h1, if_neg (by simp)]
  | cons a as ih =>
    rw [List.cons_append, dictGet_cons, dictGet_cons]
    cases ha : (a.1 == k') with
    | true => rw [if_pos (by simp), if_pos (by simp)]
    | false => rw [if_neg (by simp), if_neg (by simp)]; exact ih

theorem dictGet_dictSet_self (l : List (Pos × Nat)) (k : Pos) (v : Nat) :
    dictGet (dictSet l k v) k = some v := by
  unfold dictSet
  split
  · rename_i h
    exact dictGet_map_update k v l h
  · rename_i h
    exact dictGet_append_self k v l (by rwa [Bool.not_eq_true] at h)

theorem dictGet_dictSet_ne (l : List (Pos × Nat)) (k k' : Pos) (v : Nat)
    (hne : k' ≠ k) : dictGet (dictSet l k v) k' = dictGet l k' := by
  unfold dictSet
  split
  · exact dictGet_map_update_ne k k' v hne l
  · exact dictGet_append_ne k k' v hne l

/-- `ltUCS` is the lexicographic comparison of `(cost, node.cost)`. -/
theorem ltUCS_true_iff (a b : Nat × SearchNode) :
    ltUCS a b = true ↔ (a.1 < b.1 ∨ (a.1 = b.1 ∧ a.2.cost < b.2.cost)) := by
  unfold ltUCS
  rw [Bool.or_eq_true, Bool.and_eq_true]
  simp

theorem swoUCS : StrictWeakLt ltUCS := by
  constructor
  · intro a b h
    rw [ltUCS_true_iff] at h
    by_contra hc
    rw [Bool.not_eq_false, ltUCS_true_iff] at hc
    omega
  · intro a b c h1 h2
    by_contra hc
    rw [Bool.not_eq_false, ltUCS_true_iff] at hc
    have g1 : ¬(a.1 < b.1 ∨ (a.1 = b.1 ∧ a.2.cost < b.2.cost)) := by
      rw [← ltUCS_true_iff]
      simp [h1]
    have g2 : ¬(b.1 < c.1 ∨ (b.1 = c.1 ∧ b.2.cost < c.2.cost)) := by
      rw [← ltUCS_true_iff]
      simp [h2]
    omega

theorem fkeyLt_false_iff (f g : FKey) : fkeyLt f g = false ↔ keyR g ≤ keyR f := by
  rw [← not_lt, ← fkeyLt_iff]
  cases h : fkeyLt f g <;> simp [h]

theorem fkeyEq_iff (f g : FKey) : fkeyEq f g = true ↔ keyR f = keyR g := by
  unfold fkeyEq
  rw [Bool.and_eq_true, Bool.not_eq_true', Bool.not_eq_true',
    fkeyLt_false_iff, fkeyLt_false_iff]
  constructor
  · rintro ⟨h1, h2⟩
    exact le_antisymm h2 h1
  · intro h
    rw [h]
    exact ⟨le_refl _, le_refl _⟩

/-- `ltA` is the lexicographic comparison of the real key value, then the
node's `cost` field. -/
theorem ltA_true_iff (x y : FKey × SearchNode) :
    ltA x y = true ↔
      (keyR x.1 < keyR y.1 ∨ (keyR x.1 = keyR y.1 ∧ x.2.cost < y.2.cost)) := by
  unfold ltA
  rw [Bool.or_eq_true, Bool.and_eq_true, fkeyLt_iff, fkeyEq_iff, decide_eq_true_eq]

theorem ltA_false_iff (x y : FKey × SearchNode) :
    ltA x y = false ↔
      (keyR y.1 ≤ keyR x.1 ∧ (keyR x.1 = keyR y.1 → y.2.cost ≤ x.2.cost)) := by
  constructor
  · intro h
    have h2 : ¬(ltA x y = true) := by simp [h]
    rw [ltA_true_iff] at h2
    push_neg at h2
    exact h2
  · intro h
    cases hl : ltA x y with
    | false => rfl
    | true =>
      exfalso
      rw [ltA_true_iff] at hl
      rcases hl with h1 | ⟨h1, h2⟩
      · exact absurd h1 (not_lt.mpr h.1)
      · have := h.2 h1
        omega

theorem swoA : StrictWeakLt ltA := by
  constructor
  · intro a b h
    rw [ltA_true_iff] at h
    rw [ltA_false_iff]
    rcases h with h | ⟨h1, h2⟩
    · exact ⟨le_of_lt h, fun he => absurd h (by rw [he]; exact lt_irrefl _)⟩
    · exact ⟨le_of_eq h1, fun _ => le_of_lt h2⟩
  · intro a b c h1 h2
    rw [ltA_false_iff] at h1 h2 ⊢
    obtain ⟨hba, hba2⟩ := h1
    obtain ⟨hcb, hcb2⟩ := h2
    refine ⟨le_trans hcb hba, fun hac => ?_⟩
    have hab : keyR a.1 = keyR b.1 := le_antisymm (hac ▸ hcb) hba
    have hbc : keyR b.1 = keyR c.1 := by rw [← hab, hac]
    have h3 := hba2 hab
    have h4 := hcb2 hbc
    omega

theorem keyR_nonneg (k : FKey) : 0 ≤ keyR k := by
  unfold keyR
  positivity

theorem keyR_addFKey (g : Nat) (k : FKey) : keyR (addFKey g k) = g + keyR k := by
  unfold keyR addFKey
  push_cast
  ring

theorem keyR_nat (a : Nat) : keyR (a, 0) = (a : ℝ) := by
  unfold keyR
  simp

theorem keyR_sqrt (m : Nat) : keyR (0, m) = Real.sqrt m := by
  unfold keyR
  simp

/-- `calculate_heuristic` with its local bindings inlined. -/
theorem calculate_heuristic_eq (heuristic : String) (r goal : Pos) :
    AStarSearch.calculate_heuristic heuristic r goal =
      (if heuristic == "manhattan"
        then ((r.1 - goal.1).natAbs + (r.2 - goal.2).natAbs, 0)
        else if heuristic == "euclidean"
          then (0, (r.1 - goal.1).natAbs ^ 2 + (r.2 - goal.2).natAbs ^ 2)
          else if heuristic == "chebyshev"
            then (max (r.1 - goal.1).natAbs (r.2 - goal.2).natAbs, 0)
            else (0, 0)) := rfl

/-- The exact real value of the heuristic at a position. -/
noncomputable def hValR (heuristic : String) (goal p : Pos) : ℝ :=
  keyR (AStarSearch.calculate_heuristic heuristic p goal)

theorem hValR_nonneg (heuristic : String) (goal p : Pos) :
    0 ≤ hValR heuristic goal p := keyR_nonneg _

theorem hValR_goal (heuristic : String) (goal : Pos) :
    hValR heuristic goal goal = 0 := by
  unfold hValR
  rw [calculate_heuristic_eq]
  split
  · simp [keyR]
  · split
    · simp [keyR]
    · split
      · simp [keyR]
      · simp [keyR]

/-- The three provided heuristics (and the zero fallback) are consistent: one
admissible step of terrain cost `c ≥ 1` decreases the heuristic by at most
`c`. -/
theorem hValR_consistent (env : GridEnvironment)
    (hcost : ∀ x y, env.is_within_bounds x y = true → 1 ≤ env.get_terrain_cost x y)
    (heuristic : String) (goal p q : Pos) (hstep : stepOkP env p q) :
    hValR heuristic goal p ≤
      (env.get_terrain_cost q.1 q.2 : ℝ) + hValR heuristic goal q := by
  obtain ⟨hnbr, hb⟩ := stepOkP_facts env p q hstep
  have hc : 1 ≤ env.get_terrain_cost q.1 q.2 := hcost q.1 q.2 hb
  have hcR : (1 : ℝ) ≤ (env.get_terrain_cost q.1 q.2 : ℝ) := by exact_mod_cast hc
  simp only [Prod.mk.injEq] at hnbr
  unfold hValR
  rw [calculate_heuristic_eq, calculate_heuristic_eq]
  by_cases h1 : (heuristic == "manhattan") = true
  · rw [if_pos h1, if_pos h1, keyR_nat, keyR_nat]
    have hm : (p.1 - goal.1).natAbs + (p.2 - goal.2).natAbs ≤
        env.get_terrain_cost q.1 q.2 +
          ((q.1 - goal.1).natAbs + (q.2 - goal.2).natAbs) := by
      omega
    exact_mod_cast hm
  · rw [if_neg h1, if_neg h1]
    by_cases h2 : (heuristic == "euclidean") = true
    · rw [if_pos h2, if_pos h2, keyR_sqrt, keyR_sqrt]
      have hsplit :
          ((p.1 - goal.1).natAbs ≤ (q.1 - goal.1).natAbs + 1 ∧
            (p.2 - goal.2).natAbs = (q.2 - goal.2).natAbs) ∨
          ((p.1 - goal.1).natAbs = (q.1 - goal.1).natAbs ∧
            (p.2 - goal.2).natAbs ≤ (q.2 - goal.2).natAbs + 1) := by
        omega
      have hX0 : (0 : ℝ) ≤
          (((q.1 - goal.1).natAbs ^ 2 + (q.2 - goal.2).natAbs ^ 2 : Nat) : ℝ) := by
        positivity
      have hCs : (((q.1 - goal.1).natAbs : Nat) : ℝ) ≤
          Real.sqrt (((q.1 - goal.1).natAbs ^ 2 + (q.2 - goal.2).natAbs ^ 2 : Nat) : ℝ) := by
        have h6 : Real.sqrt ((((q.1 - goal.1).natAbs : Nat) : ℝ) ^ 2) ≤
            Real.sqrt (((q.1 - goal.1).natAbs ^ 2 + (q.2 - goal.2).natAbs ^ 2 : Nat) : ℝ) := by
          apply Real.sqrt_le_sqrt
          push_cast
          nlinarith [sq_nonneg (((q.2 - goal.2).natAbs : Nat) : ℝ)]
        rwa [Real.sqrt_sq (by positivity)] at h6
      have hDs : (((q.2 - goal.2).natAbs : Nat) : ℝ) ≤
          Real.sqrt (((q.1 - goal.1).natAbs ^ 2 + (q.2 - goal.2).natAbs ^ 2 : Nat) : ℝ) := by
        have h6 : Real.sqrt ((((q.2 - goal.2).natAbs : Nat) : ℝ) ^ 2) ≤
            Real.sqrt (((q.1 - goal.1).natAbs ^ 2 + (q.2 - goal.2).natAbs ^ 2 : Nat) : ℝ) := by
          apply Real.sqrt_le_sqrt
          push_cast
          nlinarith [sq_nonneg (((q.1 - goal.1).natAbs : Nat) : ℝ)]
        rwa [Real.sqrt_sq (by positivity)] at h6
      have hkey : (p.1 - goal.1).natAbs ^ 2 + (p.2 - goal.2).natAbs ^ 2 ≤
          (q.1 - goal.1).natAbs ^ 2 + (q.2 - goal.2).natAbs ^ 2 +
            2 * (q.1 - goal.1).natAbs + 2 * (q.2 - goal.2).natAbs + 1 ∧
          ((p.1 - goal.1).natAbs ^ 2 + (p.2 - goal.2).natAbs ^ 2 ≤
            (q.1 - goal.1).natAbs ^ 2 + (q.2 - goal.2).natAbs ^ 2 +
              2 * (q.1 - goal.1).natAbs + 1 ∨
          (p.1 - goal.1).natAbs ^ 2 + (p.2 - goal.2).natAbs ^ 2 ≤
            (q.1 - goal.1).natAbs ^ 2 + (q.2 - goal.2).natAbs ^ 2 +
              2 * (q.2 - goal.2).natAbs + 1) := by
        rcases hsplit with ⟨hA, hB⟩ | ⟨hA, hB⟩
        · have h3 : (p.1 - goal.1).natAbs ^ 2 ≤ ((q.1 - goal.1).natAbs + 1) ^ 2 :=
            Nat.pow_le_pow_left hA 2
          have h4 : ((q.1 - goal.1).natAbs + 1) ^ 2 =
              (q.1 - goal.1).natAbs ^ 2 + 2 * (q.1 - goal.1).natAbs + 1 := by ring
          have h5 : (p.2 - goal.2).natAbs ^ 2 = (q.2 - goal.2).natAbs ^ 2 := by rw [hB]
          omega
        · have h3 : (p.2 - goal.2).natAbs ^ 2 ≤ ((q.2 - goal.2).natAbs + 1) ^ 2 :=
            Nat.pow_le_pow_left hB 2
          have h4 : ((q.2 - goal.2).natAbs + 1) ^ 2 =
              (q.2 - goal.2).natAbs ^ 2 + 2 * (q.2 - goal.2).natAbs + 1 := by ring
          have h5 : (p.1 - goal.1).natAbs ^ 2 = (q.1 - goal.1).natAbs ^ 2 := by rw [hA]
          omega
      have h7 : Real.sqrt (((p.1 - goal.1).natAbs ^ 2 + (p.2 - goal.2).natAbs ^ 2 : Nat) : ℝ) ≤
          Real.sqrt ((1 + Real.sqrt
            (((q.1 - goal.1).natAbs ^ 2 + (q.2 - goal.2).natAbs ^ 2 : Nat) : ℝ)) ^ 2) := by
        apply Real.sqrt_le_sqrt
        have h8 := Real.sq_sqrt hX0
        rcases hkey.2 with hk | hk
        · have h9 : (((p.1 - goal.1).natAbs ^ 2 + (p.2 - goal.2).natAbs ^ 2 : Nat) : ℝ) ≤
              (((q.1 - goal.1).natAbs ^ 2 + (q.2 - goal.2).natAbs ^ 2 +
                2 * (q.1 - goal.1).natAbs + 1 : Nat) : ℝ) := by exact_mod_cast hk
          push_cast at h9 hCs h8 ⊢
          nlinarith [hCs]
        · have h9 : (((p.1 - goal.1).natAbs ^ 2 + (p.2 - goal.2).natAbs ^ 2 : Nat) : ℝ) ≤
              (((q.1 - goal.1).natAbs ^ 2 + (q.2 - goal.2).natAbs ^ 2 +
                2 * (q.2 - goal.2).natAbs + 1 : Nat) : ℝ) := by exact_mod_cast hk
          push_cast at h9 hDs h8 ⊢
          nlinarith [hDs]
      rw [Real.sqrt_sq (by positivity)] at h7
      have h10 := Real.sqrt_nonneg
        (((q.1 - goal.1).natAbs ^ 2 + (q.2 - goal.2).natAbs ^ 2 : Nat) : ℝ)
      linarith
    · rw [if_neg h2, if_neg h2]
      by_cases h3 : (heuristic == "chebyshev") = true
      · rw [if_pos h3, if_pos h3, keyR_nat, keyR_nat]
        have hm : max (p.1 - goal.1).natAbs (p.2 - goal.2).natAbs ≤
            env.get_terrain_cost q.1 q.2 +
              max (q.1 - goal.1).natAbs (q.2 - goal.2).natAbs := by
          omega
        exact_mod_cast hm
      · rw [if_neg h3, if_neg h3, keyR_nat]
        push_cast
        linarith

theorem HeapInv_nil (lt : α → α → Bool) (dflt : α) : HeapInv lt dflt [] := by
  intro c hc0 hcl
  simp at hcl

/-- The uniform-cost frontier invariant: a heap of well-formed nodes. -/
def UInv (env : GridEnvironment) (start : Pos) (frontier : List (Nat × SearchNode)) :
    Prop :=
  HeapInv ltUCS dfltUCS frontier ∧ ∀ e ∈ frontier, NodeOk env start e.2

/-- The push phase of the uniform-cost loop preserves the frontier invariant. -/
theorem ucs_fold_inv (env : GridEnvironment) (start : Pos) :
    ∀ (l : List SearchNode) (acc : List (Nat × SearchNode) × List (Pos × Nat)),
      UInv env start acc.1 → (∀ s ∈ l, NodeOk env start s) →
      UInv env start ((l.foldl
        (fun (acc : List (Nat × SearchNode) × List (Pos × Nat)) s =>
          let better := match dictGet acc.2 s.position with
            | none => true
            | some best => decide (s.cost < best)
          if better then
            (heappush ltUCS dfltUCS acc.1 (s.cost, s), dictSet acc.2 s.position s.cost)
          else acc)
        acc).1) := by
  intro l
  induction l with
  | nil => intro acc h _; exact h
  | cons s l' ih =>
    intro acc hacc hl
    rw [List.foldl_cons]
    refine ih _ ?_ (fun s2 h2 => hl s2 (List.mem_cons_of_mem _ h2))
    have hsok : NodeOk env start s := hl s (List.mem_cons_self _ _)
    dsimp only
    split
    · have hp := heappush_spec swoUCS dfltUCS (s.cost, s) acc.1 hacc.1
      refine ⟨hp.1, fun e he => ?_⟩
      have hmem := (hp.2.1.mem_iff).mp he
      rcases List.mem_cons.mp hmem with rfl | hmem2
      · exact hsok
      · exact hacc.2 e hmem2
    · exact hacc

/-- Any path returned by the uniform-cost loop reconstructs a well-formed node
sitting on the goal. -/
theorem ucsLoop_valid (env : GridEnvironment) (hs : env.dynamic_obstacles = [])
    (start goal : Pos) :
    ∀ (fuel : Nat) (frontier : List (Nat × SearchNode))
      (vc : List (Pos × Nat)) (p : List Pos),
      UInv env start frontier →
      ucsLoop env goal fuel frontier vc = some (some p) →
      ∃ n, NodeOk env start n ∧ n.position = goal ∧ p = reconstruct_path n := by
  intro fuel
  induction fuel with
  | zero =>
    intro frontier vc p hinv hres
    simp [ucsLoop] at hres
  | succ fuel ih =>
    intro frontier vc p hinv hres
    rw [ucsLoop] at hres
    cases hpop : heappop ltUCS dfltUCS frontier with
    | none =>
      rw [hpop] at hres
      simp at hres
    | some pr =>
      obtain ⟨⟨cc, cur⟩, frontier2⟩ := pr
      have hfne : frontier ≠ [] := by
        intro h
        rw [h] at hpop
        simp [heappop] at hpop
      obtain ⟨h2, hpop2, hinv2, hperm, hmin⟩ :=
        heappop_spec swoUCS dfltUCS frontier hfne hinv.1
      rw [hpop] at hpop2
      have hpr := Option.some.inj hpop2
      have hrooteq : ((cc, cur) : Nat × SearchNode) = frontier.getD 0 dfltUCS :=
        congrArg Prod.fst hpr
      have hf2 : frontier2 = h2 := congrArg Prod.snd hpr
      have hrootmem : ((cc, cur) : Nat × SearchNode) ∈ frontier := by
        rw [hrooteq]
        exact (hperm.mem_iff).mpr (List.mem_cons_self _ _)
      have hinvf2 : UInv env start frontier2 := by
        rw [hf2]
        exact ⟨hinv2, fun e he =>
          hinv.2 e ((hperm.mem_iff).mpr (List.mem_cons_of_mem _ he))⟩
      rw [hpop] at hres
      dsimp only at hres
      split at hres
      · exact ih frontier2 vc p hinvf2 hres
      · split at hres
        · rename_i hstale hgoal
          have hp := Option.some.inj (Option.some.inj hres)
          refine ⟨cur, hinv.2 (cc, cur) hrootmem, ?_, hp.symm⟩
          simpa using hgoal
        · rename_i hstale hgoal
          refine ih _ _ p ?_ hres
          exact ucs_fold_inv env start (get_successors env cur) (frontier2, vc)
            hinvf2 (fun s hsm =>
              NodeOk_succ env hs start cur s (hinv.2 (cc, cur) hrootmem) hsm)

/-- Any path returned by `UniformCostSearch.search` is a realizable walk from
the start to the goal. -/
theorem ucs_search_walk (env : GridEnvironment) (hs : env.dynamic_obstacles = [])
    (start goal : Pos) (fuel : Nat) (p : List Pos)
    (hres : UniformCostSearch.search env start goal fuel = some (some p)) :
    WalkTo env start goal p := by
  have h0 : UInv env start (heappush ltUCS dfltUCS [] (0, mkStartNode start)) := by
    have hp := heappush_spec swoUCS dfltUCS (0, mkStartNode start) [] (HeapInv_nil _ _)
    refine ⟨hp.1, fun e he => ?_⟩
    have hmem := (hp.2.1.mem_iff).mp he
    simp only [List.mem_cons, List.not_mem_nil, or_false] at hmem
    rw [hmem]
    exact NodeOk_mkStart env start
  obtain ⟨n, hn, hpos, hp⟩ := ucsLoop_valid env hs start goal fuel _ _ p h0 hres
  rw [hp, ← hpos]
  exact reconstruct_path_walk env start n hn

/-- The core A* frontier/g-cost invariant, relative to the closed list: the
frontier is a heap of well-formed nodes keyed `g + h`; every position with a
`g_costs` entry that is not yet closed has a frontier entry at most that good;
the start keeps its zero entry; and every frontier entry's position has a
`g_costs` entry at most the entry's cost. -/
structure ACore (env : GridEnvironment) (heuristic : String) (start goal : Pos)
    (frontier : List (FKey × SearchNode)) (g_costs : List (Pos × Nat))
    (closed : List Pos) : Prop where
  hheap : HeapInv ltA dfltA frontier
  hwf : ∀ e ∈ frontier, NodeOk env start e.2 ∧
    e.1 = addFKey e.2.cost (AStarSearch.calculate_heuristic heuristic e.2.position goal)
  hopen : ∀ p g, p ∉ closed → dictGet g_costs p = some g →
    ∃ e ∈ frontier, e.2.position = p ∧ e.2.cost ≤ g
  hstart0 : dictGet g_costs start = some 0
  hfd : ∀ e ∈ frontier, ∃ g, dictGet g_costs e.2.position = some g ∧ g ≤ e.2.cost

/-- The closed-list part of the invariant: the still-open neighbours of every
closed position have a `g_costs` entry no worse than any walk into the closed
position plus the step cost. -/
def AClosed (env : GridEnvironment) (start : Pos) (g_costs : List (Pos × Nat))
    (closed : List Pos) : Prop :=
  ∀ p ∈ closed, ∀ q, stepOkP env p q → q ∉ closed →
    ∃ gq, dictGet g_costs q = some gq ∧
      ∀ w, WalkTo env start p w →
        gq ≤ pathCost env w + env.get_terrain_cost q.1 q.2

/-- One iteration of the successor loop of `AStarSearch.search`. -/
def astarStep (env : GridEnvironment) (heuristic : String) (goal : Pos)
    (cur : SearchNode) (v2 : List Pos)
    (acc : List (FKey × SearchNode) × List (Pos × Nat)) (s : SearchNode) :
    List (FKey × SearchNode) × List (Pos × Nat) :=
  if v2.contains s.position then acc
  else
    let new_g := cur.cost + env.get_terrain_cost s.position.1 s.position.2
    let better := match dictGet acc.2 s.position with
      | none => true
      | some best => decide (new_g < best)
    if better then
      (heappush ltA dfltA acc.1
        (addFKey new_g (AStarSearch.calculate_heuristic heuristic s.position goal), s),
        dictSet acc.2 s.position new_g)
    else acc

/-- One successor-loop iteration preserves the core invariant, never increases
any `g_costs` entry, and leaves the processed successor's position (if open)
with an entry at most the successor's cost. -/
theorem astarStep_inv (env : GridEnvironment) (heuristic : String) (start goal : Pos)
    (cur : SearchNode) (v2 : List Pos)
    (acc : List (FKey × SearchNode) × List (Pos × Nat)) (s : SearchNode)
    (hacc : ACore env heuristic start goal acc.1 acc.2 v2)
    (hsok : NodeOk env start s)
    (hsc : s.cost = cur.cost + env.get_terrain_cost s.position.1 s.position.2) :
    ACore env heuristic start goal (astarStep env heuristic goal cur v2 acc s).1
      (astarStep env heuristic goal cur v2 acc s).2 v2 ∧
    (∀ p v, dictGet acc.2 p = some v →
      ∃ v2', dictGet (astarStep env heuristic goal cur v2 acc s).2 p = some v2' ∧
        v2' ≤ v) ∧
    (s.position ∉ v2 →
      ∃ g, dictGet (astarStep env heuristic goal cur v2 acc s).2 s.position = some g ∧
        g ≤ s.cost) := by
  unfold astarStep
  by_cases hv : v2.contains s.position = true
  · rw [if_pos hv]
    have hmem : s.position ∈ v2 := by simpa using hv
    exact ⟨hacc, fun p v h => ⟨v, h, le_refl v⟩, fun hn => absurd hmem hn⟩
  · rw [if_neg hv]
    dsimp only
    have hpush : (∀ b, dictGet acc.2 s.position = some b →
        cur.cost + env.get_terrain_cost s.position.1 s.position.2 < b) →
        ACore env heuristic start goal
          (heappush ltA dfltA acc.1
            (addFKey (cur.cost + env.get_terrain_cost s.position.1 s.position.2)
              (AStarSearch.calculate_heuristic heuristic s.position goal), s))
          (dictSet acc.2 s.position
            (cur.cost + env.get_terrain_cost s.position.1 s.position.2)) v2 ∧
        (∀ p v, dictGet acc.2 p = some v →
          ∃ v2', dictGet (dictSet acc.2 s.position
            (cur.cost + env.get_terrain_cost s.position.1 s.position.2)) p = some v2' ∧
            v2' ≤ v) ∧
        (∃ g, dictGet (dictSet acc.2 s.position
          (cur.cost + env.get_terrain_cost s.position.1 s.position.2)) s.position
            = some g ∧ g ≤ s.cost) := by
      intro hold
      have hng : s.cost = cur.cost + env.get_terrain_cost s.position.1 s.position.2 := hsc
      have hp := heappush_spec swoA dfltA
        (addFKey (cur.cost + env.get_terrain_cost s.position.1 s.position.2)
          (AStarSearch.calculate_heuristic heuristic s.position goal), s) acc.1 hacc.hheap
      have hss : s.position ≠ start := by
        intro he
        have h0 := hacc.hstart0
        rw [← he] at h0
        have := hold 0 h0
        omega
      refine ⟨⟨hp.1, ?_, ?_, ?_, ?_⟩, ?_, ?_⟩
      · intro e he
        rcases List.mem_cons.mp ((hp.2.1.mem_iff).mp he) with rfl | hmem2
        · exact ⟨hsok, by rw [hng]⟩
        · exact hacc.hwf e hmem2
      · intro p g hpnc hdg
        by_cases hps : p = s.position
        · subst hps
          rw [dictGet_dictSet_self] at hdg
          refine ⟨(addFKey (cur.cost + env.get_terrain_cost s.position.1 s.position.2)
            (AStarSearch.calculate_heuristic heuristic s.position goal), s),
            (hp.2.1.mem_iff).mpr (List.mem_cons_self _ _), rfl, ?_⟩
          rw [hng, Option.some.inj hdg]
        · rw [dictGet_dictSet_ne _ _ _ _ hps] at hdg
          obtain ⟨e, hem, hep, hec⟩ := hacc.hopen p g hpnc hdg
          exact ⟨e, (hp.2.1.mem_iff).mpr (List.mem_cons_of_mem _ hem), hep, hec⟩
      · rw [dictGet_dictSet_ne _ _ _ _ (fun he => hss he.symm)]
        exact hacc.hstart0
      · intro e he
        rcases List.mem_cons.mp ((hp.2.1.mem_iff).mp he) with rfl | hmem2
        · exact ⟨cur.cost + env.get_terrain_cost s.position.1 s.position.2,
            dictGet_dictSet_self _ _ _, by rw [hng]⟩
        · obtain ⟨g0, hg0, hg0le⟩ := hacc.hfd e hmem2
          by_cases hps : e.2.position = s.position
          · rw [hps] at hg0
            have hlt := hold g0 hg0
            refine ⟨cur.cost + env.get_terrain_cost s.position.1 s.position.2, ?_, ?_⟩
            · rw [hps]
              exact dictGet_dictSet_self _ _ _
            · omega
          · exact ⟨g0, by rw [dictGet_dictSet_ne _ _ _ _ hps]; exact hg0, hg0le⟩
      · intro p v hdv
        by_cases hps : p = s.position
        · subst hps
          have hlt := hold v hdv
          exact ⟨cur.cost + env.get_terrain_cost s.position.1 s.position.2,
            dictGet_dictSet_self _ _ _, by omega⟩
        · exact ⟨v, by rw [dictGet_dictSet_ne _ _ _ _ hps]; exact hdv, le_refl v⟩
      · exact ⟨cur.cost + env.get_terrain_cost s.position.1 s.position.2,
          dictGet_dictSet_self _ _ _, by rw [hng]⟩
    cases hd : dictGet acc.2 s.position with
    | none =>
      have hmain := hpush (fun b hb => by rw [hd] at hb; cases hb)
      exact ⟨hmain.1, hmain.2.1, fun _ => hmain.2.2⟩
    | some best =>
      by_cases hbt : cur.cost + env.get_terrain_cost s.position.1 s.position.2 < best
      · rw [if_pos (by simpa using hbt)]
        have hmain := hpush (fun b hb => by
          rw [hd] at hb
          rw [← Option.some.inj hb]
          exact hbt)
        exact ⟨hmain.1, hmain.2.1, fun _ => hmain.2.2⟩
      · rw [if_neg (by simpa using hbt)]
        refine ⟨hacc, fun p v h => ⟨v, h, le_refl v⟩, fun _ => ⟨best, hd, ?_⟩⟩
        rw [hsc]
        omega

/-- The successor loop of `AStarSearch.search` preserves the core invariant,
never increases `g_costs` entries, and gives every processed open successor a
`g_costs` entry at most the successor's cost. -/
theorem astar_fold_inv (env : GridEnvironment) (heuristic : String) (start goal : Pos)
    (cur : SearchNode) (v2 : List Pos) :
    ∀ (l : List SearchNode) (acc : List (FKey × SearchNode) × List (Pos × Nat)),
      ACore env heuristic start goal acc.1 acc.2 v2 →
      (∀ s ∈ l, NodeOk env start s ∧
        s.cost = cur.cost + env.get_terrain_cost s.position.1 s.position.2) →
      ACore env heuristic start goal
          (l.foldl (astarStep env heuristic goal cur v2) acc).1
          (l.foldl (astarStep env heuristic goal cur v2) acc).2 v2 ∧
        (∀ p v, dictGet acc.2 p = some v →
          ∃ vb, dictGet (l.foldl (astarStep env heuristic goal cur v2) acc).2 p
            = some vb ∧ vb ≤ v) ∧
        (∀ s ∈ l, s.position ∉ v2 →
          ∃ g, dictGet (l.foldl (astarStep env heuristic goal cur v2) acc).2 s.position
            = some g ∧ g ≤ s.cost) := by
  intro l
  induction l with
  | nil =>
    intro acc h _
    exact ⟨h, fun p v hv => ⟨v, hv, le_refl v⟩, by simp⟩
  | cons s l2 ih =>
    intro acc hacc hl
    rw [List.foldl_cons]
    have hstep := astarStep_inv env heuristic start goal cur v2 acc s hacc
      (hl s (List.mem_cons_self _ _)).1 (hl s (List.mem_cons_self _ _)).2
    have hmain := ih (astarStep env heuristic goal cur v2 acc s) hstep.1
      (fun s2 h2 => hl s2 (List.mem_cons_of_mem _ h2))
    refine ⟨hmain.1, ?_, ?_⟩
    · intro p v hv
      obtain ⟨v1, hv1, hle1⟩ := hstep.2.1 p v hv
      obtain ⟨vb, hvb, hle2⟩ := hmain.2.1 p v1 hv1
      exact ⟨vb, hvb, le_trans hle2 hle1⟩
    · intro s2 hs2 hnv
      rcases List.mem_cons.mp hs2 with rfl | h2
      · obtain ⟨g, hg, hgle⟩ := hstep.2.2 hnv
        obtain ⟨g2, hg2, hgle2⟩ := hmain.2.1 s2.position g hg
        exact ⟨g2, hg2, le_trans hgle2 hgle⟩
      · exact hmain.2.2 s2 h2 hnv

/-- The crux of A* optimality under a consistent heuristic: any walk from the
start to an unclosed position is witnessed in the frontier by an entry whose
key is at most the walk's cost plus the heuristic at the walk's end. -/
theorem frontier_below (env : GridEnvironment)
    (hcost : ∀ x y, env.is_within_bounds x y = true → 1 ≤ env.get_terrain_cost x y)
    (heuristic : String) (start goal : Pos)
    (frontier : List (FKey × SearchNode)) (g_costs : List (Pos × Nat))
    (closed : List Pos)
    (hco : ACore env heuristic start goal frontier g_costs closed)
    (hcl : AClosed env start g_costs closed) :
    ∀ w, List.Chain' (stepOkP env) w → w.head? = some start →
      ∀ p, w.getLast? = some p → p ∉ closed →
      ∃ e ∈ frontier,
        keyR e.1 ≤ (pathCost env w : ℝ) + hValR heuristic goal p := by
  intro w
  induction w using List.reverseRecOn with
  | nil =>
    intro _ hh
    simp at hh
  | append_singleton ys q ihw =>
    intro hchain hhead p hlast hpnc
    have hpq : p = q := by
      rw [List.getLast?_concat] at hlast
      exact (Option.some.inj hlast).symm
    subst hpq
    by_cases hysnil : ys = []
    · subst hysnil
      simp only [List.nil_append] at hhead ⊢
      have hqs : p = start := by simpa using hhead
      subst hqs
      obtain ⟨e, hem, hep, hec⟩ := hco.hopen p 0 hpnc hco.hstart0
      have hc0 : e.2.cost = 0 := Nat.le_zero.mp hec
      refine ⟨e, hem, ?_⟩
      rw [(hco.hwf e hem).2, keyR_addFKey]
      show (e.2.cost : ℝ) + hValR heuristic goal e.2.position ≤
        ((pathCost env [p] : Nat) : ℝ) + hValR heuristic goal p
      rw [hep, hc0, pathCost_singleton]
    · have hchain2 := List.chain'_append.mp hchain
      have hlastu : ys.getLast? = some (ys.getLast hysnil) :=
        List.getLast?_eq_getLast ys hysnil
      have hstep : stepOkP env (ys.getLast hysnil) p := by
        refine hchain2.2.2 (ys.getLast hysnil) ?_ p ?_
        · rw [hlastu]
          rfl
        · rfl
      have hhead2 : ys.head? = some start := by
        rw [List.head?_append_of_ne_nil ys hysnil] at hhead
        exact hhead
      have hpc : pathCost env (ys ++ [p]) =
          pathCost env ys + env.get_terrain_cost p.1 p.2 :=
        pathCost_append_singleton env ys p hysnil
      by_cases huc : ys.getLast hysnil ∈ closed
      · obtain ⟨gq, hgq, hbound⟩ := hcl (ys.getLast hysnil) huc p hstep hpnc
        have hwu : WalkTo env start (ys.getLast hysnil) ys :=
          ⟨hhead2, hlastu, hchain2.1⟩
        have hb := hbound ys hwu
        obtain ⟨e, hem, hep, hec⟩ := hco.hopen p gq hpnc hgq
        refine ⟨e, hem, ?_⟩
        rw [(hco.hwf e hem).2, keyR_addFKey]
        show (e.2.cost : ℝ) + hValR heuristic goal e.2.position ≤
          ((pathCost env (ys ++ [p]) : Nat) : ℝ) + hValR heuristic goal p
        rw [hep, hpc]
        have hle : (e.2.cost : ℝ) ≤
            ((pathCost env ys + env.get_terrain_cost p.1 p.2 : Nat) : ℝ) := by
          exact_mod_cast le_trans hec hb
        push_cast at hle ⊢
        linarith
      · obtain ⟨e, hem, hev⟩ := ihw hchain2.1 hhead2 (ys.getLast hysnil) hlastu huc
        refine ⟨e, hem, ?_⟩
        have hcons := hValR_consistent env hcost heuristic goal
          (ys.getLast hysnil) p hstep
        rw [hpc]
        push_cast
        push_cast at hev
        linarith

/-- Any path returned by the A* loop reconstructs a well-formed node on the
goal whose cost is at most the cost of every realizable walk to the goal. -/
theorem astarLoop_opt (env : GridEnvironment) (hs : env.dynamic_obstacles = [])
    (hcost : ∀ x y, env.is_within_bounds x y = true → 1 ≤ env.get_terrain_cost x y)
    (heuristic : String) (start goal : Pos) :
    ∀ (fuel : Nat) (frontier : List (FKey × SearchNode)) (g_costs : List (Pos × Nat))
      (visited : List Pos) (pa : List Pos),
      ACore env heuristic start goal frontier g_costs visited →
      AClosed env start g_costs visited →
      astarLoop env heuristic goal fuel frontier g_costs visited = some (some pa) →
      ∃ n, NodeOk env start n ∧ n.position = goal ∧ pa = reconstruct_path n ∧
        ∀ w, WalkTo env start goal w → n.cost ≤ pathCost env w := by
  intro fuel
  induction fuel with
  | zero =>
    intro frontier g_costs visited pa hcore hclosed hres
    simp [astarLoop] at hres
  | succ fuel ih =>
    intro frontier g_costs visited pa hcore hclosed hres
    rw [astarLoop] at hres
    cases hpop : heappop ltA dfltA frontier with
    | none =>
      rw [hpop] at hres
      simp at hres
    | some pr =>
      obtain ⟨⟨k, cur⟩, frontier2⟩ := pr
      have hfne : frontier ≠ [] := by
        intro h
        rw [h] at hpop
        simp [heappop] at hpop
      obtain ⟨h2, hpop2, hinv2, hperm, hmin⟩ :=
        heappop_spec swoA dfltA frontier hfne hcore.hheap
      rw [hpop] at hpop2
      have hpr := Option.some.inj hpop2
      have hrooteq : ((k, cur) : FKey × SearchNode) = frontier.getD 0 dfltA :=
        congrArg Prod.fst hpr
      have hf2 : frontier2 = h2 := congrArg Prod.snd hpr
      have hperm2 : List.Perm frontier (((k, cur) : FKey × SearchNode) :: h2) := by
        rw [hrooteq]
        exact hperm
      have hrootmem : ((k, cur) : FKey × SearchNode) ∈ frontier :=
        (hperm2.mem_iff).mpr (List.mem_cons_self _ _)
      have hcurok : NodeOk env start cur := (hcore.hwf (k, cur) hrootmem).1
      have hmemf2 : ∀ e ∈ frontier2, e ∈ frontier := by
        intro e he
        rw [hf2] at he
        exact (hperm2.mem_iff).mpr (List.mem_cons_of_mem _ he)
      rw [hpop] at hres
      dsimp only at hres
      split at hres
      · rename_i hvis
        have hcvis : cur.position ∈ visited := by simpa using hvis
        have hcore2 : ACore env heuristic start goal frontier2 g_costs visited := by
          refine ⟨hf2 ▸ hinv2, fun e he => hcore.hwf e (hmemf2 e he), ?_,
            hcore.hstart0, fun e he => hcore.hfd e (hmemf2 e he)⟩
          intro p g hpn hdg
          obtain ⟨e, hem, hep, hec⟩ := hcore.hopen p g hpn hdg
          rw [hf2]
          rcases List.mem_cons.mp ((hperm2.mem_iff).mp hem) with rfl | hmem2
          · exact absurd (hep ▸ hcvis) hpn
          · exact ⟨e, hmem2, hep, hec⟩
        exact ih frontier2 g_costs visited pa hcore2 hclosed hres
      · rename_i hvis
        have hcnv : cur.position ∉ visited := by simpa using hvis
        have hcurmin : ∀ w, WalkTo env start cur.position w →
            cur.cost ≤ pathCost env w := by
          intro w hw
          obtain ⟨hwh, hwl, hwc⟩ := hw
          obtain ⟨e, hem, hev⟩ := frontier_below env hcost heuristic start goal
            frontier g_costs visited hcore hclosed w hwc hwh cur.position hwl hcnv
          have hmy := hmin e hem
          rw [← hrooteq] at hmy
          have hle := ((ltA_false_iff e (k, cur)).mp hmy).1
          have hkeq : keyR ((k, cur) : FKey × SearchNode).1 =
              (cur.cost : ℝ) + hValR heuristic goal cur.position := by
            rw [(hcore.hwf (k, cur) hrootmem).2, keyR_addFKey]
            rfl
          have hfin : (cur.cost : ℝ) ≤ (pathCost env w : ℝ) := by
            rw [hkeq] at hle
            linarith
          exact_mod_cast hfin
        split at hres
        · rename_i hgoal
          have hposeq : cur.position = goal := by simpa using hgoal
          have hpa := Option.some.inj (Option.some.inj hres)
          exact ⟨cur, hcurok, hposeq, hpa.symm,
            fun w hw => hcurmin w (hposeq ▸ hw)⟩
        · rename_i hgoal
          have hsuccs : ∀ s ∈ get_successors env cur, NodeOk env start s ∧
              s.cost = cur.cost + env.get_terrain_cost s.position.1 s.position.2 :=
            fun s hsm => ⟨NodeOk_succ env hs start cur s hcurok hsm,
              (mem_get_successors env hs cur s hsm).2.1⟩
          have hcore2 : ACore env heuristic start goal frontier2 g_costs
              (visited ++ [cur.position]) := by
            refine ⟨hf2 ▸ hinv2, fun e he => hcore.hwf e (hmemf2 e he), ?_,
              hcore.hstart0, fun e he => hcore.hfd e (hmemf2 e he)⟩
            intro p g hpn hdg
            have hpnv : p ∉ visited := fun h => hpn (List.mem_append_left _ h)
            obtain ⟨e, hem, hep, hec⟩ := hcore.hopen p g hpnv hdg
            rw [hf2]
            rcases List.mem_cons.mp ((hperm2.mem_iff).mp hem) with rfl | hmem2
            · exact absurd (List.mem_append_right _ (hep ▸ List.mem_singleton_self _))
                hpn
            · exact ⟨e, hmem2, hep, hec⟩
          have hfold := astar_fold_inv env heuristic start goal cur
            (visited ++ [cur.position]) (get_successors env cur)
            (frontier2, g_costs) hcore2 hsuccs
          have hclosed2 : AClosed env start
              ((get_successors env cur).foldl
                (astarStep env heuristic goal cur (visited ++ [cur.position]))
                (frontier2, g_costs)).2 (visited ++ [cur.position]) := by
            intro p hp q hq hqn
            have hqnv : q ∉ visited := fun h => hqn (List.mem_append_left _ h)
            rcases List.mem_append.mp hp with hpv | hpc
            · obtain ⟨gq, hgq, hb⟩ := hclosed p hpv q hq hqnv
              obtain ⟨gq2, hgq2, hle2⟩ := hfold.2.1 q gq hgq
              exact ⟨gq2, hgq2, fun w hw => le_trans hle2 (hb w hw)⟩
            · have hpc2 : p = cur.position := by simpa using hpc
              subst hpc2
              obtain ⟨s, hsm, hsp, hscost⟩ := get_successors_cover env hs cur q hq
              obtain ⟨g, hg, hgle⟩ := hfold.2.2 s hsm (by rw [hsp]; exact hqn)
              refine ⟨g, by rw [← hsp]; exact hg, fun w hw => ?_⟩
              have hcm := hcurmin w hw
              rw [hscost] at hgle
              omega
          exact ih _ _ _ pa hfold.1 hclosed2 hres

/-- `AStarSearch.search` on a statically-obstructed grid with positive terrain
costs returns (when it returns a path) a walk that is at least as cheap as
every realizable walk from the start to the goal. -/
theorem astar_search_opt (env : GridEnvironment) (hs : env.dynamic_obstacles = [])
    (hcost : ∀ x y, env.is_within_bounds x y = true → 1 ≤ env.get_terrain_cost x y)
    (heuristic : String) (start goal : Pos) (fuel : Nat) (pa : List Pos)
    (hres : AStarSearch.search env heuristic start goal fuel = some (some pa)) :
    WalkTo env start goal pa ∧
      ∀ w, WalkTo env start goal w → pathCost env pa ≤ pathCost env w := by
  have hpush := heappush_spec swoA dfltA
    (AStarSearch.calculate_heuristic heuristic start goal, mkStartNode start) []
    (HeapInv_nil _ _)
  have hmem0 : ∀ e, e ∈ heappush ltA dfltA []
      (AStarSearch.calculate_heuristic heuristic start goal, mkStartNode start) →
      e = (AStarSearch.calculate_heuristic heuristic start goal, mkStartNode start) := by
    intro e he
    have hm := (hpush.2.1.mem_iff).mp he
    simpa using hm
  have hcore0 : ACore env heuristic start goal
      (heappush ltA dfltA []
        (AStarSearch.calculate_heuristic heuristic start goal, mkStartNode start))
      [(start, 0)] [] := by
    refine ⟨hpush.1, ?_, ?_, ?_, ?_⟩
    · intro e he
      rw [hmem0 e he]
      refine ⟨NodeOk_mkStart env start, ?_⟩
      show AStarSearch.calculate_heuristic heuristic start goal =
        addFKey 0 (AStarSearch.calculate_heuristic heuristic start goal)
      unfold addFKey
      rw [Nat.zero_add]
    · intro p g hpn hdg
      have hps : p = start ∧ g = 0 := by
        rw [dictGet_cons] at hdg
        by_cases hp : ((start, 0) : Pos × Nat).1 == p
        · rw [if_pos hp] at hdg
          exact ⟨by simpa using (beq_iff_eq.mp hp).symm, by simpa using hdg.symm⟩
        · rw [if_neg hp] at hdg
          cases hdg
      refine ⟨(AStarSearch.calculate_heuristic heuristic start goal,
        mkStartNode start), (hpush.2.1.mem_iff).mpr (List.mem_cons_self _ _), ?_, ?_⟩
      · show start = p
        rw [hps.1]
      · show 0 ≤ g
        omega
    · rw [dictGet_cons, if_pos (by simp)]
    · intro e he
      rw [hmem0 e he]
      refine ⟨0, ?_, by show 0 ≤ 0; omega⟩
      show dictGet [(start, 0)] (mkStartNode start).position = some 0
      rw [dictGet_cons, if_pos (by simp [mkStartNode, SearchNode.position])]
  have hclosed0 : AClosed env start [(start, 0)] [] := by
    intro p hp
    simp at hp
  obtain ⟨n, hn, hpos, hpa, hminw⟩ := astarLoop_opt env hs hcost heuristic start goal
    fuel _ _ _ pa hcore0 hclosed0 hres
  constructor
  · rw [hpa, ← hpos]
    exact reconstruct_path_walk env start n hn
  · intro w hw
    rw [hpa, reconstruct_path_cost env start n hn]
    exact hminw w hw

/-- Every in-bounds cell of the spec's 5×5 scenario grid costs 1 (and the
`getD` defaults are 1 as well). -/
theorem env5_cost_ge_one (x y : Int) (h : env5.is_within_bounds x y = true) :
    1 ≤ env5.get_terrain_cost x y := by
  unfold GridEnvironment.get_terrain_cost
  rw [if_pos h]
  show 1 ≤ ((List.replicate 5 (List.replicate 5 1)).getD y.toNat []).getD x.toNat 1
  by_cases hy : y.toNat < 5
  · have hrow : (List.replicate 5 (List.replicate 5 (1 : Nat))).getD y.toNat [] =
        List.replicate 5 1 := by
      rw [List.getD_eq_getElem _ _ (by simpa using hy)]
      exact List.getElem_replicate _ _
    rw [hrow]
    by_cases hx : x.toNat < 5
    · rw [List.getD_eq_getElem _ _ (by simpa using hx), List.getElem_replicate]
    · rw [List.getD_eq_default _ _ (by simpa using Nat.not_lt.mp hx)]
  · have hrow : (List.replicate 5 (List.replicate 5 (1 : Nat))).getD y.toNat [] =
        [] := List.getD_eq_default _ _ (by simpa using Nat.not_lt.mp hy)
    rw [hrow]
    simp

/-- Claim C3 (amended): on every grid environment with no dynamic obstacles
and all in-bounds terrain costs at least 1, for every heuristic name (the
three provided ones included), every start and goal and any fuel, a path
returned by `AStarSearch.search` never has a larger total terrain cost than a
path returned by `UniformCostSearch.search` on the same grid.  Both
hypotheses are necessary: terrain costs below 1 and dynamic obstacles each
admit a counterexample (the zero-cost grid `envCx` and the patrolling-bot
grid `envDyn`). -/
theorem astar_not_worse_than_ucs (env : GridEnvironment)
    (hs : env.dynamic_obstacles = [])
    (hcost : ∀ x y, env.is_within_bounds x y = true → 1 ≤ env.get_terrain_cost x y)
    (heuristic : String) (start goal : Pos) (fuelA fuelU : Nat) (pa pu : List Pos)
    (hA : AStarSearch.search env heuristic start goal fuelA = some (some pa))
    (hU : UniformCostSearch.search env start goal fuelU = some (some pu)) :
    pathCost env pa ≤ pathCost env pu :=
  (astar_search_opt env hs hcost heuristic start goal fuelA pa hA).2 pu
    (ucs_search_walk env hs start goal fuelU pu hU)

/-- Witness for C3 (amended): the comparison instantiated on the spec's 5×5
scenario with the `manhattan` heuristic; both searches return concrete paths
and the A* path costs no more. -/
theorem astar_not_worse_than_ucs_witness :
    env5.dynamic_obstacles = [] ∧
    (∀ x y, env5.is_within_bounds x y = true → 1 ≤ env5.get_terrain_cost x y) ∧
    AStarSearch.search env5 "manhattan" (0, 0) (4, 4) 300 =
      some (some [(0, 0), (0, 1), (0, 2), (0, 3), (1, 3), (2, 3), (3, 3), (4, 3),
        (4, 4)]) ∧
    UniformCostSearch.search env5 (0, 0) (4, 4) 300 =
      some (some [(0, 0), (0, 1), (0, 2), (0, 3), (1, 3), (2, 3), (3, 3), (4, 3),
        (4, 4)]) ∧
    pathCost env5 [((0 : Int), (0 : Int)), (0, 1), (0, 2), (0, 3), (1, 3), (2, 3),
        (3, 3), (4, 3), (4, 4)] ≤
      pathCost env5 [((0 : Int), (0 : Int)), (0, 1), (0, 2), (0, 3), (1, 3), (2, 3),
        (3, 3), (4, 3), (4, 4)] :=
  ⟨rfl, env5_cost_ge_one, by decide, by decide,
    astar_not_worse_than_ucs env5 rfl env5_cost_ge_one "manhattan" (0, 0) (4, 4)
      300 300 _ _ (by decide) (by decide)⟩
